import Mathlib

/-!
Verification development for the Conversation Memory Backfill Engine
(`src/lib/memory/backfill.ts`).

The TypeScript source is shallowly embedded in Lean:
* JSON values produced by `JSON.parse` are modelled by the inductive `JValue`;
  the parse function itself (`JSON.parse`, which can throw on malformed lines)
  is abstracted as a parameter `jp : JParse` returning `Option JValue`
  (`none` = the parse threw, the line is skipped by the engine).
* JavaScript date parsing (`new Date(s).getTime()`, possibly `NaN`) is
  abstracted as a parameter `dp : DateParse` returning `Option Int`
  (`none` = `NaN`).
* JavaScript numbers used as counters are modelled as `Nat`,
  epoch-millisecond timestamps as `Int`.
* Nullable values are `Option`; JavaScript truthiness of strings
  (the empty string is falsy) is modelled explicitly where the source
  relies on it.
* The filesystem is abstracted at the seam of `findJsonlFiles`: the engine
  model receives, per source, the list of discovered `.jsonl` files in walk
  order together with their contents (`none` = unreadable, skipped).
-/

namespace Backfill

/-- JSON values, as returned by a successful `JSON.parse`. -/
inductive JValue where
  | jnull
  | jbool (b : Bool)
  | jnum (n : Int)
  | jstr (s : String)
  | jarr (items : List JValue)
  | jobj (fields : List (String × JValue))
deriving Repr

/-- The behavior of `JSON.parse` on one line; `none` models a thrown error. -/
abbrev JParse := String → Option JValue

/-- The behavior of `new Date(s).getTime()`; `none` models `NaN`. -/
abbrev DateParse := String → Option Int

/-- First binding of a key in a JSON object literal's field list. -/
def lookupField : List (String × JValue) → String → Option JValue
  | [], _ => none
  | (k, v) :: rest, key => if k = key then some v else lookupField rest key

/-- JavaScript property access `v[k]` for the shapes the engine reads:
yields the field of an object, `none` for any non-object (including `null`,
whose property access throws inside the per-line `try` and therefore
contributes nothing, observably the same as `undefined` here). -/
def jget : JValue → String → Option JValue
  | .jobj fields, key => lookupField fields key
  | _, _ => none

/-- Property access through an optional receiver (an absent field). -/
def jgetOpt (o : Option JValue) (key : String) : Option JValue :=
  match o with
  | some v => jget v key
  | none => none

/-- JavaScript truthiness of a JSON value. -/
def jsTruthyJ : JValue → Bool
  | .jnull => false
  | .jbool b => b
  | .jnum n => n != 0
  | .jstr s => s != ""
  | .jarr _ => true
  | .jobj _ => true

/-- Truthiness through `Option` (`none` = `undefined`, falsy). -/
def jsTruthyJ? : Option JValue → Bool
  | some v => jsTruthyJ v
  | none => false

/-- JavaScript falsiness of a nullable string variable (`!x`):
true for `null`/`undefined` and for the empty string. -/
def jsFalsy : Option String → Bool
  | none => true
  | some s => s == ""

/-- Whitespace recognized by JavaScript `String.prototype.trim`
(restricted to the ASCII range; the engine feeds it paths and JSON text). -/
def isJsWs (c : Char) : Bool :=
  c = ' ' || c = '\t' || c = '\n' || c = '\r' || c = '\x0b' || c = '\x0c'

/-- `String.prototype.trim` on a character list. -/
def jsTrimChars (cs : List Char) : List Char :=
  (((cs.dropWhile isJsWs).reverse).dropWhile isJsWs).reverse

/-- `String.prototype.trim`. -/
def strTrim (s : String) : String :=
  ⟨jsTrimChars s.data⟩

/-- One of `\n`, `\r`, `\t` (the character class of the
`truncateText` regular expression). -/
def isNRT (c : Char) : Bool :=
  c = '\n' || c = '\r' || c = '\t'

/-- `raw.replace(/[\n\r\t]+/g, ' ')`: each maximal run of newline, carriage
return or tab characters becomes a single space.  The boolean component of
the fold state records whether the previous character belonged to a run. -/
def collapseNRT (cs : List Char) : List Char :=
  (cs.foldl
    (fun (acc : List Char × Bool) c =>
      if isNRT c then (if acc.2 then acc else (' ' :: acc.1, true))
      else (c :: acc.1, false))
    ([], false)).1.reverse

/-- `truncateText` from the source: collapse `[\n\r\t]+` runs to spaces,
trim, return `null` for a falsy/blank result, else cap at `maxLength`
characters (`substring(0, maxLength)`). -/
def truncateText (raw : Option String) (maxLength : Nat := 100) : Option String :=
  match raw with
  | none => none
  | some s =>
    if s = "" then none
    else
      let normalized : List Char := jsTrimChars (collapseNRT s.data)
      if normalized = [] then none
      else if normalized.length > maxLength then some ⟨normalized.take maxLength⟩
      else some ⟨normalized⟩

/-- Does `needle` start `hay`? -/
def startsWithChars : List Char → List Char → Bool
  | _, [] => true
  | [], _ :: _ => false
  | h :: t, n :: ns => h = n && startsWithChars t ns

/-- Contiguous-substring test on character lists (`String.prototype.includes`). -/
def hasSubChars : List Char → List Char → Bool
  | [], needle => needle.isEmpty
  | h :: t, needle => startsWithChars (h :: t) needle || hasSubChars t needle

/-- `hay.includes(needle)`. -/
def hasSubstr (hay needle : String) : Bool :=
  hasSubChars hay.data needle.data

/-- `model.toLowerCase()` (character-wise, as `String.toLower`). -/
def strToLower (s : String) : String :=
  ⟨s.data.map Char.toLower⟩

/-- `toDisplayModel` from the source: map raw model ids to display labels by
substring match on the lowercased id; unmatched ids pass through unchanged. -/
def toDisplayModel (model : String) : String :=
  let normalized := strToLower model
  if hasSubstr normalized "sonnet" then "Sonnet 4.5"
  else if hasSubstr normalized "haiku" then "Haiku 4.5"
  else if hasSubstr normalized "opus" then "Opus 4.5"
  else model

/-- `parseTimestamp` from the source: `null` unless the raw value is a
non-empty string that JavaScript date parsing accepts. -/
def parseTimestamp (dp : DateParse) (raw : Option JValue) : Option Int :=
  match raw with
  | some (.jstr s) => if s.length = 0 then none else dp s
  | _ => none

/-- JavaScript `Set` insertion: append if not already present
(insertion order of first sighting is preserved). -/
def setAdd (xs : List String) (v : String) : List String :=
  if xs.contains v then xs else xs ++ [v]

/-- `parseUserContent`'s treatment of one entry of a content-chunk list:
the text of a `text`/`input_text` chunk, with empty strings removed by the
subsequent `.filter(Boolean)`. -/
def chunkText (entry : JValue) : Option String :=
  match jget entry "type", jget entry "text" with
  | some (.jstr "input_text"), some (.jstr t) => if t = "" then none else some t
  | some (.jstr "text"), some (.jstr t) => if t = "" then none else some t
  | _, _ => none

/-- `parseUserContent` from the source: a plain-string `content` is truncated
directly; a list of typed chunks contributes only its text-bearing chunks,
joined by single spaces; anything else yields `null`. -/
def parseUserContent (payload : JValue) : Option String :=
  match jget payload "content" with
  | some (.jstr s) => truncateText (some s)
  | some (.jarr entries) =>
      truncateText (some (String.intercalate " " (entries.filterMap chunkText)))
  | _ => none

/-- The two transcript source kinds. -/
inductive ConversationSource where
  | claude
  | codex
deriving Repr, DecidableEq, BEq

/-- `DiscoveredConversation` from the source. -/
structure DiscoveredConversation where
  source : ConversationSource
  jsonlFile : String
  cwd : Option String
  sessionId : Option String
  firstMessageAt : Option Int
  lastMessageAt : Option Int
  messageCount : Nat
  firstUserMessage : Option String
  modelNames : Option String
  gitBranch : Option String
  cliVersion : Option String
deriving Repr, DecidableEq

/-- Mutable extraction state shared by both extractors (the local variables
of `extractConversationFrom*Lines`). -/
structure ExtractState where
  sessionId : Option String := none
  cwd : Option String := none
  firstUserMessage : Option String := none
  gitBranch : Option String := none
  cliVersion : Option String := none
  firstMessageAt : Option Int := none
  lastMessageAt : Option Int := none
  models : List String := []
deriving Repr, DecidableEq

/-- Running-minimum update of `firstMessageAt`
(`parsedTs < firstMessageAt` or not yet set). -/
def updMin (st : ExtractState) (ts : Int) : ExtractState :=
  match st.firstMessageAt with
  | none => { st with firstMessageAt := some ts }
  | some f => if ts < f then { st with firstMessageAt := some ts } else st

/-- Running-maximum update of `lastMessageAt`
(`eventTs > lastMessageAt` or not yet set). -/
def updMax (st : ExtractState) (ts : Int) : ExtractState :=
  match st.lastMessageAt with
  | none => { st with lastMessageAt := some ts }
  | some l => if ts > l then { st with lastMessageAt := some ts } else st

/-- The four first-seen-wins scalar metadata updates of the Claude metadata
loop (`sessionId`, `cwd`, `gitBranch`, `version`). -/
def claudeMetaUpd (st : ExtractState) (v : JValue) : ExtractState :=
  let st := match jget v "sessionId" with
    | some (.jstr s) => if jsFalsy st.sessionId then { st with sessionId := some s } else st
    | _ => st
  let st := match jget v "cwd" with
    | some (.jstr s) => if jsFalsy st.cwd then { st with cwd := some s } else st
    | _ => st
  let st := match jget v "gitBranch" with
    | some (.jstr s) => if jsFalsy st.gitBranch then { st with gitBranch := some s } else st
    | _ => st
  match jget v "version" with
  | some (.jstr s) => if jsFalsy st.cliVersion then { st with cliVersion := some s } else st
  | _ => st

/-- The running-minimum `firstMessageAt` update of the Claude metadata loop. -/
def claudeTsUpd (dp : DateParse) (st : ExtractState) (v : JValue) : ExtractState :=
  match parseTimestamp dp (jget v "timestamp") with
  | some ts => updMin st ts
  | none => st

/-- The first-user-message update of the Claude metadata loop. -/
def claudeUserUpd (st : ExtractState) (v : JValue) : ExtractState :=
  match jget v "type" with
  | some (.jstr t) =>
    if t = "user" ∧ jsFalsy st.firstUserMessage then
      match jgetOpt (jget v "message") "content" with
      | some (.jstr c) => { st with firstUserMessage := truncateText (some c) }
      | _ => st
    else st
  | _ => st

/-- The assistant-model collection of the Claude metadata loop. -/
def claudeModelUpd (st : ExtractState) (v : JValue) : ExtractState :=
  match jget v "type" with
  | some (.jstr t) =>
    if t = "assistant" then
      match jgetOpt (jget v "message") "model" with
      | some (.jstr m) => { st with models := setAdd st.models (toDisplayModel m) }
      | _ => st
    else st
  | _ => st

/-- Processing of one successfully parsed line of a Claude transcript
(the body of the metadata loop of `extractConversationFromClaudeLines`), in
the source's statement order: first-seen-wins scalar metadata, then the
running-minimum timestamp, then the first user message preview, then model
collection from assistant lines. -/
def claudeLineStep (dp : DateParse) (st : ExtractState) (v : JValue) : ExtractState :=
  claudeModelUpd (claudeUserUpd (claudeTsUpd dp (claudeMetaUpd st v) v) v) v

/-- The backward scan of `extractConversationFromClaudeLines`: walk from the
last line down to index `max(0, length - 50)` and return the first
parseable timestamp found. -/
def findLastTs (jp : JParse) (dp : DateParse) (lines : List String) : Option Int :=
  ((lines.drop (lines.length - 50)).reverse).findSome? fun line =>
    match jp line with
    | some v => parseTimestamp dp (jget v "timestamp")
    | none => none

/-- Comma-joined model set, `null` when empty. -/
def joinModels (models : List String) : Option String :=
  if models = [] then none else some (String.intercalate ", " models)

/-- `extractConversationFromClaudeLines` from the source: metadata from a
bounded 80-line prefix (malformed lines skipped), `lastMessageAt` from the
bounded backward scan, `messageCount` = number of (non-empty) input lines. -/
def extractConversationFromClaudeLines (jp : JParse) (dp : DateParse)
    (lines : List String) (jsonlFile : String) : DiscoveredConversation :=
  let metadataLines := lines.take 80
  let st := metadataLines.foldl
    (fun st line =>
      match jp line with
      | some v => claudeLineStep dp st v
      | none => st)
    {}
  { source := .claude
    jsonlFile := jsonlFile
    cwd := st.cwd
    sessionId := st.sessionId
    firstMessageAt := st.firstMessageAt
    lastMessageAt := findLastTs jp dp lines
    messageCount := lines.length
    firstUserMessage := st.firstUserMessage
    modelNames := joinModels st.models
    gitBranch := st.gitBranch
    cliVersion := st.cliVersion }

/-- `session_meta` event handling of the Codex extractor. -/
def codexSessionMeta (st : ExtractState) (payload : Option JValue) : ExtractState :=
  if jsTruthyJ? payload then
    let st := match jgetOpt payload "id" with
      | some (.jstr s) => if jsFalsy st.sessionId then { st with sessionId := some s } else st
      | _ => st
    let st := match jgetOpt payload "cwd" with
      | some (.jstr s) => if jsFalsy st.cwd then { st with cwd := some s } else st
      | _ => st
    let st := match jgetOpt payload "cli_version" with
      | some (.jstr s) => if jsFalsy st.cliVersion then { st with cliVersion := some s } else st
      | _ => st
    match jgetOpt (jgetOpt payload "git") "branch" with
    | some (.jstr b) => if jsFalsy st.gitBranch then { st with gitBranch := some b } else st
    | _ => st
  else st

/-- `turn_context` event handling of the Codex extractor. -/
def codexTurnContext (st : ExtractState) (payload : Option JValue) : ExtractState :=
  if jsTruthyJ? payload then
    let st := match jgetOpt payload "cwd" with
      | some (.jstr s) => if jsFalsy st.cwd then { st with cwd := some s } else st
      | _ => st
    match jgetOpt payload "model" with
    | some (.jstr m) => { st with models := setAdd st.models m }
    | _ => st
  else st

/-- `response_item` event handling of the Codex extractor: only a
message-typed payload with role `user` can supply the preview. -/
def codexResponseItem (st : ExtractState) (payload : Option JValue) : ExtractState :=
  match payload with
  | some p =>
    if jsTruthyJ p then
      match jget p "type", jget p "role" with
      | some (.jstr "message"), some (.jstr "user") =>
        if jsFalsy st.firstUserMessage then { st with firstUserMessage := parseUserContent p }
        else st
      | _, _ => st
    else st
  | none => st

/-- `event_msg` event handling of the Codex extractor. -/
def codexEventMsg (st : ExtractState) (payload : Option JValue) : ExtractState :=
  if jsTruthyJ? payload then
    match jgetOpt payload "type", jgetOpt payload "message" with
    | some (.jstr "user_message"), some (.jstr m) =>
      if jsFalsy st.firstUserMessage then { st with firstUserMessage := truncateText (some m) }
      else st
    | _, _ => st
  else st

/-- Processing of one successfully parsed line of a Codex transcript
(the loop body of `extractConversationFromCodexLines`): running min/max
timestamps across every line, then event-kind dispatch. -/
def codexLineStep (dp : DateParse) (st : ExtractState) (v : JValue) : ExtractState :=
  let st := match parseTimestamp dp (jget v "timestamp") with
    | some ts => updMax (updMin st ts) ts
    | none => st
  match jget v "type" with
  | some (.jstr t) =>
    if t = "session_meta" then codexSessionMeta st (jget v "payload")
    else if t = "turn_context" then codexTurnContext st (jget v "payload")
    else if t = "response_item" then codexResponseItem st (jget v "payload")
    else if t = "event_msg" then codexEventMsg st (jget v "payload")
    else st
  | _ => st

/-- `extractConversationFromCodexLines` from the source: full scan of all
lines (malformed lines skipped), tracking running min/max timestamps. -/
def extractConversationFromCodexLines (jp : JParse) (dp : DateParse)
    (lines : List String) (jsonlFile : String) : DiscoveredConversation :=
  let st := lines.foldl
    (fun st line =>
      match jp line with
      | some v => codexLineStep dp st v
      | none => st)
    {}
  { source := .codex
    jsonlFile := jsonlFile
    cwd := st.cwd
    sessionId := st.sessionId
    firstMessageAt := st.firstMessageAt
    lastMessageAt := st.lastMessageAt
    messageCount := lines.length
    firstUserMessage := st.firstUserMessage
    modelNames := joinModels st.models
    gitBranch := st.gitBranch
    cliVersion := st.cliVersion }

/-! ## Path normalizer

`normalizePathForMatch` calls Node's `path.normalize` and strips a trailing
`path.sep`.  The engine runs on a POSIX host (the transcript roots live under
the user's home directory), so the POSIX variants of `path.normalize`,
`path.sep`, `path.basename` and `path.dirname` are embedded. -/

/-- Split a character list on a separator character; the result always has at
least one (possibly empty) segment. -/
def splitOnChar (sep : Char) : List Char → List (List Char)
  | [] => [[]]
  | c :: rest =>
    let r := splitOnChar sep rest
    if c = sep then [] :: r
    else
      match r with
      | [] => [[c]]
      | h :: t => (c :: h) :: t

/-- Segment resolution of Node's `normalizeString`: drop empty and `.`
segments, resolve `..` against the accumulated result (popping a previous
segment, or—only for relative paths—stacking leading `..` segments).
The accumulator holds segments in reverse order. -/
def normSegsStep (allowAboveRoot : Bool) (acc : List (List Char)) (seg : List Char) :
    List (List Char) :=
  if seg = [] ∨ seg = ['.'] then acc
  else if seg = ['.', '.'] then
    match acc with
    | [] => if allowAboveRoot then [seg] else []
    | top :: rest =>
      if top = ['.', '.'] then (if allowAboveRoot then seg :: acc else acc)
      else rest
  else seg :: acc

/-- Resolved segment list (in order) of Node's `normalizeString`. -/
def normSegs (allowAboveRoot : Bool) (segs : List (List Char)) : List (List Char) :=
  (segs.foldl (normSegsStep allowAboveRoot) []).reverse

/-- Join resolved segments with `/`. -/
def joinSegs : List (List Char) → List Char
  | [] => []
  | [s] => s
  | s :: rest => s ++ '/' :: joinSegs rest

/-- Node `path.posix.normalize` on a character list: resolve `.`/`..` and
redundant separators, preserving absoluteness and one trailing separator,
with `.` for an empty relative result. -/
def posixNormalizeChars (cs : List Char) : List Char :=
  let isAbs := cs.head? = some '/'
  let trailing := cs.getLast? = some '/'
  let body := joinSegs (normSegs (!isAbs) (splitOnChar '/' cs))
  if body = [] then
    if isAbs then ['/'] else if trailing then ['.', '/'] else ['.']
  else
    (if isAbs then '/' :: body else body) ++ (if trailing then ['/'] else [])

/-- Strip one trailing occurrence of `c` when the list is longer than one
character (`normalized.length > 1 && normalized.endsWith(sep)`). -/
def stripTrailing (c : Char) (cs : List Char) : List Char :=
  if cs.length > 1 ∧ cs.getLast? = some c then cs.dropLast else cs

/-- `normalized.replace(/\\/g, '/')`. -/
def replaceBackslashes (cs : List Char) : List Char :=
  cs.map fun c => if c = '\\' then '/' else c

/-- The `/^([A-Za-z]):\//` drive-letter match: lower-case a leading
single-letter-colon-slash prefix, leaving the rest untouched. -/
def driveFix : List Char → List Char
  | a :: ':' :: '/' :: rest =>
    if a.isAlpha then a.toLower :: ':' :: '/' :: rest else a :: ':' :: '/' :: rest
  | cs => cs

/-- `normalizePathForMatch` from the source: trim, structurally normalize,
strip one trailing `path.sep`, convert backslashes to slashes, strip one
trailing slash, lower-case a drive-letter prefix. -/
def normalizePathForMatch (input : String) : String :=
  let n1 := posixNormalizeChars (jsTrimChars input.data)
  let n2 := stripTrailing '/' n1
  let n3 := replaceBackslashes n2
  let n4 := stripTrailing '/' n3
  ⟨driveFix n4⟩

/-- Node `path.posix.basename` (no extension argument): the characters after
the last separator, ignoring trailing separators. -/
def posixBasename (p : String) : String :=
  ⟨((p.data.reverse.dropWhile (· = '/')).takeWhile (· ≠ '/')).reverse⟩

/-- Node `path.posix.dirname`. -/
def posixDirname (p : String) : String :=
  let cs := p.data
  let hasRoot := cs.head? = some '/'
  let noTrail := (cs.reverse.dropWhile (· = '/')).reverse
  let u := (noTrail.reverse.dropWhile (· ≠ '/')).reverse
  if u.length ≤ 1 then (if hasRoot then "/" else ".")
  else if hasRoot ∧ u.length = 2 then "//"
  else ⟨cs.take (u.length - 1)⟩

/-! ## The external store (spec-modelled)

The record store (`@/lib/cozo-schema-simple`), the agent registry
(`@/lib/agent-registry`) and the live session-inventory HTTP service are
external collaborators whose code is not part of the repository slice; they
are modelled from the spec. -/

/-- Modelled from the spec: the session record written by `recordSession`
(store upsert keyed by `session_id`). -/
structure SessionRecord where
  session_id : String
  session_name : String
  agent_id : String
  working_directory : Option String
  started_at : Option Int
  status : String
deriving Repr, DecidableEq

/-- Modelled from the spec: the project record written by `recordProject`
(store upsert keyed by `project_path`). -/
structure ProjectRecord where
  project_path : String
  project_name : String
  claude_dir : String
deriving Repr, DecidableEq

/-- Modelled from the spec: the conversation record written by
`recordConversation` (store upsert keyed by `jsonl_file`). -/
structure ConversationRecord where
  jsonl_file : String
  project_path : String
  session_id : String
  message_count : Nat
  first_message_at : Option Int
  last_message_at : Option Int
  first_user_message : Option String
  model_names : Option String
  git_branch : Option String
  claude_version : Option String
deriving Repr, DecidableEq

/-- Modelled from the spec: the per-agent store state — schema-initialized
collections of sessions, projects and conversations. -/
structure Store where
  sessions : List SessionRecord
  projects : List ProjectRecord
  conversations : List ConversationRecord
deriving Repr, DecidableEq

/-- Modelled from the spec: idempotent-by-key upsert — replace every record
with the same key, or append when the key is new. -/
def upsertBy {α : Type} (key : α → String) (r : α) (xs : List α) : List α :=
  if xs.any (fun x => key x = key r) then
    xs.map fun x => if key x = key r then r else x
  else xs ++ [r]

/-- Modelled from the spec: `recordSession` applied to the store state. -/
def recordSessionStore (st : Store) (r : SessionRecord) : Store :=
  { st with sessions := upsertBy (fun x => x.session_id) r st.sessions }

/-- Modelled from the spec: `recordProject` applied to the store state. -/
def recordProjectStore (st : Store) (r : ProjectRecord) : Store :=
  { st with projects := upsertBy (fun x => x.project_path) r st.projects }

/-- Modelled from the spec: `recordConversation` applied to the store state. -/
def recordConversationStore (st : Store) (r : ConversationRecord) : Store :=
  { st with conversations := upsertBy (fun x => x.jsonl_file) r st.conversations }

/-- The pure content of `getExistingConversationFiles` (lines 404–417 of the
source): list all projects, then for each project all its conversations,
collecting every truthy `jsonl_file` (row[0]). -/
def existingConvFiles (st : Store) : List String :=
  st.projects.flatMap fun p =>
    (st.conversations.filter fun c => c.project_path = p.project_path).filterMap
      fun c => if c.jsonl_file = "" then none else some c.jsonl_file

/-- Failure injection for the external store: which write keys throw, and
whether the existing-files listing (`getProjects`/`getConversations`) throws. -/
structure StoreFail where
  failSession : String → Bool
  failProject : String → Bool
  failConversation : String → Bool
  failListing : Bool

/-- A store that never throws. -/
def noFail : StoreFail :=
  { failSession := fun _ => false
    failProject := fun _ => false
    failConversation := fun _ => false
    failListing := false }

/-- `getExistingConversationFiles` from the source: a store read that throws
(`Except.error`) exactly when the underlying listing fails. -/
def getExistingConversationFiles (sf : StoreFail) (st : Store) : Except Unit (List String) :=
  if sf.failListing then .error () else .ok (existingConvFiles st)

/-- The write operations the engine issues against the store, in invocation
order (each entry is an attempt; a failed attempt aborts or is caught
according to the engine's control flow). -/
inductive WriteOp where
  | wSession (sessionId : String)
  | wProject (projectPath : String)
  | wConversation (jsonlFile : String)
deriving Repr, DecidableEq

/-! ## Environment: registry, live sessions and filesystem -/

/-- Modelled from the spec: the registry data the resolver reads
(`getAgent(agentId) || getAgentBySession(agentId)`):
`workingDirectory`, `sessions?.[0]?.workingDirectory` and
`preferences?.defaultWorkingDirectory`. -/
structure RegistryAgent where
  workingDirectory : Option String
  firstSessionWd : Option String
  prefWd : Option String
deriving Repr, DecidableEq

/-- Modelled from the spec: one session of the live session-inventory
service's response. -/
structure LiveSession where
  agentId : String
  id : String
  name : String
  workingDirectory : Option String
  createdAt : String
  status : String
deriving Repr, DecidableEq

/-- One file found by `findJsonlFiles`, with its content
(`none` = `readFileSync` threw; the file is skipped). -/
structure FileEntry where
  path : String
  content : Option String
deriving Repr, DecidableEq

/-- The external world of one engine invocation: registry data, the live
session-inventory response (`none` = fetch failed / non-ok / malformed), and
the `.jsonl` files found under each source root, in walk order. -/
structure Env where
  registry : Option RegistryAgent
  live : Option (List LiveSession)
  claudeFiles : List FileEntry
  codexFiles : List FileEntry

/-! ## Discovery -/

/-- The non-empty lines of a transcript file:
`raw.split('\n').filter((line) => line.trim().length > 0)`. -/
def nonEmptyLines (raw : String) : List String :=
  ((splitOnChar '\n' raw.data).map fun cs => (⟨cs⟩ : String)).filter
    fun line => strTrim line ≠ ""

/-- `discoverConversationsFromFiles` from the source: skip unreadable files
and files with no non-empty line; parse the rest with the extractor of the
requested source kind. -/
def discoverConversationsFromFiles (jp : JParse) (dp : DateParse)
    (files : List FileEntry) (source : ConversationSource) : List DiscoveredConversation :=
  files.filterMap fun f =>
    match f.content with
    | none => none
    | some raw =>
      let lines := nonEmptyLines raw
      if lines.isEmpty then none
      else some (match source with
        | .claude => extractConversationFromClaudeLines jp dp lines f.path
        | .codex => extractConversationFromCodexLines jp dp lines f.path)

/-- `discoverConversations` from the source: Claude files first, then Codex
files, each included when its source kind was requested. -/
def discoverConversations (jp : JParse) (dp : DateParse) (env : Env)
    (sources : List ConversationSource) : List DiscoveredConversation :=
  (if sources.contains .claude then
    discoverConversationsFromFiles jp dp env.claudeFiles .claude
  else []) ++
  (if sources.contains .codex then
    discoverConversationsFromFiles jp dp env.codexFiles .codex
  else [])

/-! ## Working-directory resolver -/

/-- `SessionDiscoveryResult` from the source. -/
structure SessionDiscoveryResult where
  activeSessionsSeen : Nat
  workingDirectories : List String
deriving Repr, DecidableEq

/-- Registry contribution to the working-directory set: the agent's base
working directory (falling back to its first session's) and its preference
default, when truthy, normalized. -/
def registryWds (reg : Option RegistryAgent) : List String :=
  match reg with
  | none => []
  | some a =>
    let baseWd := if jsFalsy a.workingDirectory then a.firstSessionWd else a.workingDirectory
    let wds : List String :=
      match baseWd with
      | some b => if b = "" then [] else setAdd [] (normalizePathForMatch b)
      | none => []
    match a.prefWd with
    | some p => if p = "" then wds else setAdd wds (normalizePathForMatch p)
    | none => wds

/-- The loop over the live sessions (lines 380–396 of the source).  A
`recordSession` failure is thrown inside the surrounding `try`, so the loop
stops there and the state accumulated so far is kept (the catch swallows the
error).  Sessions of other agents are skipped; writes happen only with
`applyWrites`. -/
def sessionLoop (dp : DateParse) (sf : StoreFail) (agentId : String) (applyWrites : Bool) :
    List LiveSession → Nat → List String → Store → List WriteOp →
    Nat × List String × Store × List WriteOp
  | [], seen, wds, st, log => (seen, wds, st, log)
  | s :: rest, seen, wds, st, log =>
    if s.agentId ≠ agentId then sessionLoop dp sf agentId applyWrites rest seen wds st log
    else
      let seen := seen + 1
      let wds := match s.workingDirectory with
        | some w => if w = "" then wds else setAdd wds (normalizePathForMatch w)
        | none => wds
      if applyWrites then
        let log := log ++ [.wSession s.id]
        if sf.failSession s.id then (seen, wds, st, log)
        else
          sessionLoop dp sf agentId applyWrites rest seen wds
            (recordSessionStore st
              { session_id := s.id
                session_name := s.name
                agent_id := agentId
                working_directory := s.workingDirectory
                started_at := dp s.createdAt
                status := s.status })
            log
      else sessionLoop dp sf agentId applyWrites rest seen wds st log

/-- `fetchWorkingDirectoriesForAgent` from the source: registry directories
plus best-effort live-session directories; live-inventory unavailability
degrades silently to registry-only data. -/
def fetchWorkingDirectoriesForAgent (dp : DateParse) (env : Env) (sf : StoreFail)
    (st : Store) (agentId : String) (applyWrites : Bool) :
    SessionDiscoveryResult × Store × List WriteOp :=
  let wds := registryWds env.registry
  match env.live with
  | none => (⟨0, wds⟩, st, [])
  | some sessions =>
    let r := sessionLoop dp sf agentId applyWrites sessions 0 wds st []
    (⟨r.1, r.2.1⟩, r.2.2.1, r.2.2.2)

/-! ## Report and request -/

/-- `SourceStats` from the source. -/
structure SourceStats where
  discovered : Nat
  matched : Nat
  unmapped : Nat
  existing : Nat
  inserted : Nat
deriving Repr, DecidableEq

/-- `Record<ConversationSource, SourceStats>`. -/
structure SourcesMap where
  claude : SourceStats
  codex : SourceStats
deriving Repr, DecidableEq

/-- `report.sources[s]`. -/
def getStats (m : SourcesMap) : ConversationSource → SourceStats
  | .claude => m.claude
  | .codex => m.codex

/-- In-place update of `report.sources[s]`. -/
def updStats (m : SourcesMap) (s : ConversationSource) (f : SourceStats → SourceStats) :
    SourcesMap :=
  match s with
  | .claude => { m with claude := f m.claude }
  | .codex => { m with codex := f m.codex }

/-- `BackfillReport` from the source (`mode` is `"dry-run"` or `"apply"`). -/
structure BackfillReport where
  success : Bool
  agent_id : String
  mode : String
  sources : SourcesMap
  total_discovered : Nat
  total_matched : Nat
  total_unmapped : Nat
  total_existing : Nat
  total_inserted : Nat
  max_files_applied : Nat
  truncated : Bool
  working_directories : List String
  active_sessions_seen : Nat
  unmapped_examples : List String
  existing_examples : List String
  inserted_examples : List String
deriving Repr, DecidableEq

/-- `BackfillRequest` from the source (all fields optional). -/
structure BackfillRequest where
  sources : Option (List ConversationSource) := none
  dryRun : Option Bool := none
  maxFiles : Option Nat := none
  force : Option Bool := none
deriving Repr, DecidableEq

/-- The requested source list, defaulting to all sources when absent or
empty (`request.sources && request.sources.length > 0`). -/
def effectiveSources (req : BackfillRequest) : List ConversationSource :=
  match req.sources with
  | some l => if l.length > 0 then l else [.claude, .codex]
  | none => [.claude, .codex]

/-- `const dryRun = request.dryRun === true`. -/
def effectiveDryRun (req : BackfillRequest) : Bool :=
  req.dryRun == some true

/-- `maxFiles` with its positivity check and default of 5000. -/
def effectiveMaxFiles (req : BackfillRequest) : Nat :=
  match req.maxFiles with
  | some n => if n > 0 then n else 5000
  | none => 5000

/-- `MAX_EXAMPLES`. -/
def MAX_EXAMPLES : Nat := 20

/-- `pushExample` from the source. -/
def pushExample (target : List String) (value : String) : List String :=
  if target.length ≥ MAX_EXAMPLES then target else target ++ [value]

/-- `emptySourceStats` from the source. -/
def emptySourceStats : SourceStats :=
  { discovered := 0, matched := 0, unmapped := 0, existing := 0, inserted := 0 }

/-- `emptyReport` from the source. -/
def emptyReport (agentId : String) (dryRun : Bool) (maxFilesApplied : Nat) :
    BackfillReport :=
  { success := true
    agent_id := agentId
    mode := if dryRun then "dry-run" else "apply"
    sources := { claude := emptySourceStats, codex := emptySourceStats }
    total_discovered := 0
    total_matched := 0
    total_unmapped := 0
    total_existing := 0
    total_inserted := 0
    max_files_applied := maxFilesApplied
    truncated := false
    working_directories := []
    active_sessions_seen := 0
    unmapped_examples := []
    existing_examples := []
    inserted_examples := [] }

/-! ## Match & dedup engine -/

/-- `item.cwd ? normalizePathForMatch(item.cwd) : null`. -/
def normCwd : Option String → Option String
  | some c => if c = "" then none else some (normalizePathForMatch c)
  | none => none

/-- The matched/unmapped classification loop (lines 490–501 of the source).
Returns the updated report and the matched conversations, their working
directory replaced by its normalized form. -/
def classifyLoop (wdList : List String) :
    List DiscoveredConversation → BackfillReport → List DiscoveredConversation →
    BackfillReport × List DiscoveredConversation
  | [], r, m => (r, m)
  | item :: rest, r, m =>
    match normCwd item.cwd with
    | some nc =>
      if nc ≠ "" ∧ wdList.contains nc then
        classifyLoop wdList rest
          { r with
            sources := updStats r.sources item.source fun s => { s with matched := s.matched + 1 }
            total_matched := r.total_matched + 1 }
          (m ++ [{ item with cwd := some nc }])
      else
        classifyLoop wdList rest
          { r with
            sources := updStats r.sources item.source fun s => { s with unmapped := s.unmapped + 1 }
            total_unmapped := r.total_unmapped + 1
            unmapped_examples := pushExample r.unmapped_examples item.jsonlFile }
          m
    | none =>
      classifyLoop wdList rest
        { r with
          sources := updStats r.sources item.source fun s => { s with unmapped := s.unmapped + 1 }
          total_unmapped := r.total_unmapped + 1
          unmapped_examples := pushExample r.unmapped_examples item.jsonlFile }
        m

/-- The project record written for an inserted conversation. -/
def projRecord (item : DiscoveredConversation) (cwd : String) : ProjectRecord :=
  { project_path := cwd
    project_name := if posixBasename cwd = "" then "unknown" else posixBasename cwd
    claude_dir := posixDirname item.jsonlFile }

/-- `x || undefined` for numbers: `0` is falsy. -/
def jsNumOrUndef : Option Int → Option Int
  | some n => if n = 0 then none else some n
  | none => none

/-- `x || undefined` for strings: the empty string is falsy. -/
def jsStrOrUndef : Option String → Option String
  | some s => if s = "" then none else some s
  | none => none

/-- The conversation record written for an inserted conversation. -/
def convRecord (item : DiscoveredConversation) (cwd : String) : ConversationRecord :=
  { jsonl_file := item.jsonlFile
    project_path := cwd
    session_id := match item.sessionId with
      | some s => if s = "" then "unknown" else s
      | none => "unknown"
    message_count := item.messageCount
    first_message_at := jsNumOrUndef item.firstMessageAt
    last_message_at := jsNumOrUndef item.lastMessageAt
    first_user_message := jsStrOrUndef item.firstUserMessage
    model_names := jsStrOrUndef item.modelNames
    git_branch := jsStrOrUndef item.gitBranch
    claude_version := jsStrOrUndef item.cliVersion }

/-- The existing/new classification and persistence loop (lines 505–536 of
the source).  A failing `recordProject`/`recordConversation` propagates as
`Except.error`; in dry-run mode (or for a falsy working directory) no write
is attempted, and the item is counted as inserted either way. -/
def persistLoop (sf : StoreFail) (dryRun : Bool) (existingFiles : List String) :
    List DiscoveredConversation → BackfillReport → Store → List WriteOp →
    Except Unit (BackfillReport × Store × List WriteOp)
  | [], r, st, log => .ok (r, st, log)
  | item :: rest, r, st, log =>
    if existingFiles.contains item.jsonlFile then
      persistLoop sf dryRun existingFiles rest
        { r with
          sources := updStats r.sources item.source fun s => { s with existing := s.existing + 1 }
          total_existing := r.total_existing + 1
          existing_examples := pushExample r.existing_examples item.jsonlFile }
        st log
    else
      let r' := { r with
        sources := updStats r.sources item.source fun s => { s with inserted := s.inserted + 1 }
        total_inserted := r.total_inserted + 1
        inserted_examples := pushExample r.inserted_examples item.jsonlFile }
      match item.cwd, dryRun with
      | some cwd, false =>
        if cwd = "" then persistLoop sf dryRun existingFiles rest r' st log
        else
          let log := log ++ [.wProject cwd]
          if sf.failProject cwd then .error ()
          else
            let st := recordProjectStore st (projRecord item cwd)
            let log := log ++ [.wConversation item.jsonlFile]
            if sf.failConversation item.jsonlFile then .error ()
            else
              persistLoop sf dryRun existingFiles rest r'
                (recordConversationStore st (convRecord item cwd)) log
      | _, _ => persistLoop sf dryRun existingFiles rest r' st log

/-- Per-source discovered counters (`report.sources[item.source].discovered++`
over the full pre-truncation discovered list). -/
def bumpDiscovered (r : BackfillReport) (items : List DiscoveredConversation) :
    BackfillReport :=
  items.foldl
    (fun r item =>
      { r with
        sources := updStats r.sources item.source fun s =>
          { s with discovered := s.discovered + 1 } })
    r

/-- The report as it stands after the discovery stage (lines 471–487 of the
source): the empty report with the resolver results, per-source discovered
counters and pre-truncation total, and the truncation flag. -/
def preReport (agentId : String) (dryRun : Bool) (maxFiles : Nat)
    (fr : SessionDiscoveryResult) (discoveredAll : List DiscoveredConversation) :
    BackfillReport :=
  let r1 := { emptyReport agentId dryRun maxFiles with
    active_sessions_seen := fr.activeSessionsSeen
    working_directories := fr.workingDirectories }
  let r2 := { bumpDiscovered r1 discoveredAll with total_discovered := discoveredAll.length }
  if discoveredAll.length > maxFiles then { r2 with truncated := true } else r2

/-- `discovered.slice(0, maxFiles)` when the cap is exceeded. -/
def truncatedList (maxFiles : Nat) (discoveredAll : List DiscoveredConversation) :
    List DiscoveredConversation :=
  if discoveredAll.length > maxFiles then discoveredAll.take maxFiles else discoveredAll

/-- `backfillAgentMemory` from the source, as a function of the abstract
JSON/date parsers, the environment, the store failure behavior and the
store state.  Returns the report, the final store state and the write
operations attempted, or `Except.error` when a store fault propagated. -/
def backfillAgentMemory (jp : JParse) (dp : DateParse) (env : Env) (sf : StoreFail)
    (st : Store) (agentId : String) (req : BackfillRequest) :
    Except Unit (BackfillReport × Store × List WriteOp) :=
  let dryRun := effectiveDryRun req
  let maxFiles := effectiveMaxFiles req
  let fr := fetchWorkingDirectoriesForAgent dp env sf st agentId (!dryRun)
  let discoveredAll := discoverConversations jp dp env (effectiveSources req)
  let r3 := preReport agentId dryRun maxFiles fr.1 discoveredAll
  let cl := classifyLoop r3.working_directories (truncatedList maxFiles discoveredAll) r3 []
  match getExistingConversationFiles sf fr.2.1 with
  | .error e => .error e
  | .ok existingFiles => persistLoop sf dryRun existingFiles cl.2 cl.1 fr.2.1 fr.2.2

/-! ## Proof-support characterizations

Pure recursions that the loop lemmas below identify with the components of
`sessionLoop`, `classifyLoop` and `persistLoop`.  They are derived forms for
proofs, not source translations. -/

/-- Number of live sessions belonging to the agent (the final
`activeSessionsSeen` of an uninterrupted session loop). -/
def sessionSeen (agentId : String) : List LiveSession → Nat → Nat
  | [], seen => seen
  | s :: rest, seen =>
    if s.agentId ≠ agentId then sessionSeen agentId rest seen
    else sessionSeen agentId rest (seen + 1)

/-- Working-directory accumulation of an uninterrupted session loop. -/
def sessionWds (agentId : String) : List LiveSession → List String → List String
  | [], wds => wds
  | s :: rest, wds =>
    if s.agentId ≠ agentId then sessionWds agentId rest wds
    else
      sessionWds agentId rest
        (match s.workingDirectory with
          | some w => if w = "" then wds else setAdd wds (normalizePathForMatch w)
          | none => wds)

/-- The matched sublist produced by the classification loop: items with a
truthy working directory whose normalized form is in the resolved set, the
directory replaced by that normalized form. -/
def matchedOf (wdList : List String) (items : List DiscoveredConversation) :
    List DiscoveredConversation :=
  items.filterMap fun item =>
    match normCwd item.cwd with
    | some nc =>
      if nc ≠ "" ∧ wdList.contains nc then some { item with cwd := some nc } else none
    | none => none

/-- The report component of the classification loop. -/
def classifyReport (wdList : List String) :
    List DiscoveredConversation → BackfillReport → BackfillReport
  | [], r => r
  | item :: rest, r =>
    match normCwd item.cwd with
    | some nc =>
      if nc ≠ "" ∧ wdList.contains nc then
        classifyReport wdList rest
          { r with
            sources := updStats r.sources item.source fun s => { s with matched := s.matched + 1 }
            total_matched := r.total_matched + 1 }
      else
        classifyReport wdList rest
          { r with
            sources := updStats r.sources item.source fun s => { s with unmapped := s.unmapped + 1 }
            total_unmapped := r.total_unmapped + 1
            unmapped_examples := pushExample r.unmapped_examples item.jsonlFile }
    | none =>
      classifyReport wdList rest
        { r with
          sources := updStats r.sources item.source fun s => { s with unmapped := s.unmapped + 1 }
          total_unmapped := r.total_unmapped + 1
          unmapped_examples := pushExample r.unmapped_examples item.jsonlFile }

/-- The report component of a persistence loop that never throws. -/
def persistReport (existingFiles : List String) :
    List DiscoveredConversation → BackfillReport → BackfillReport
  | [], r => r
  | item :: rest, r =>
    if existingFiles.contains item.jsonlFile then
      persistReport existingFiles rest
        { r with
          sources := updStats r.sources item.source fun s => { s with existing := s.existing + 1 }
          total_existing := r.total_existing + 1
          existing_examples := pushExample r.existing_examples item.jsonlFile }
    else
      persistReport existingFiles rest
        { r with
          sources := updStats r.sources item.source fun s => { s with inserted := s.inserted + 1 }
          total_inserted := r.total_inserted + 1
          inserted_examples := pushExample r.inserted_examples item.jsonlFile }

/-- The store component of a persistence loop that never throws. -/
def persistStoreF (dryRun : Bool) (existingFiles : List String) :
    List DiscoveredConversation → Store → Store
  | [], st => st
  | item :: rest, st =>
    if existingFiles.contains item.jsonlFile then persistStoreF dryRun existingFiles rest st
    else
      match item.cwd, dryRun with
      | some cwd, false =>
        if cwd = "" then persistStoreF dryRun existingFiles rest st
        else
          persistStoreF dryRun existingFiles rest
            (recordConversationStore (recordProjectStore st (projRecord item cwd))
              (convRecord item cwd))
      | _, _ => persistStoreF dryRun existingFiles rest st

/-- The write-log component of a persistence loop that never throws. -/
def persistLogF (dryRun : Bool) (existingFiles : List String) :
    List DiscoveredConversation → List WriteOp → List WriteOp
  | [], log => log
  | item :: rest, log =>
    if existingFiles.contains item.jsonlFile then persistLogF dryRun existingFiles rest log
    else
      match item.cwd, dryRun with
      | some cwd, false =>
        if cwd = "" then persistLogF dryRun existingFiles rest log
        else
          persistLogF dryRun existingFiles rest
            (log ++ [.wProject cwd, .wConversation item.jsonlFile])
      | _, _ => persistLogF dryRun existingFiles rest log

/-- The timestamp a line contributes, if it parses and carries one. -/
def lineTs (jp : JParse) (dp : DateParse) (line : String) : Option Int :=
  match jp line with
  | some v => parseTimestamp dp (jget v "timestamp")
  | none => none

/-- The timestamp pair of an extraction state is well-formed: either both
ends are unset, or both are set with `first ≤ last`. -/
def tsOrdered (st : ExtractState) : Prop :=
  (st.firstMessageAt = none ∧ st.lastMessageAt = none) ∨
    ∃ a b, st.firstMessageAt = some a ∧ st.lastMessageAt = some b ∧ a ≤ b

/-- Items of a given source kind. -/
def countSource (s : ConversationSource) (items : List DiscoveredConversation) : Nat :=
  (items.filter fun i => i.source = s).length

/-- Items whose transcript path is already known to the store. -/
def existingItems (existingFiles : List String) (items : List DiscoveredConversation) :
    List DiscoveredConversation :=
  items.filter fun i => existingFiles.contains i.jsonlFile

/-- Items whose transcript path is new to the store. -/
def newItems (existingFiles : List String) (items : List DiscoveredConversation) :
    List DiscoveredConversation :=
  items.filter fun i => !(existingFiles.contains i.jsonlFile)

/-! ## Concrete fixtures for witnesses and counterexamples -/

/-- A concrete `JSON.parse` behavior, agreeing with JavaScript on the three
transcript lines the fixtures use (anything else is treated as malformed,
as `JSON.parse("x")` would throw). -/
def jp0 : JParse := fun s =>
  if s = "\x7b\"cwd\":\"/p\"\x7d" then some (.jobj [("cwd", .jstr "/p")])
  else if s = "\x7b\"timestamp\":\"1970-01-01T00:00:00.100Z\"\x7d" then
    some (.jobj [("timestamp", .jstr "1970-01-01T00:00:00.100Z")])
  else if s = "\x7b\"timestamp\":\"1970-01-01T00:00:00.050Z\"\x7d" then
    some (.jobj [("timestamp", .jstr "1970-01-01T00:00:00.050Z")])
  else none

/-- A concrete date-parse behavior, agreeing with JavaScript's
`new Date(s).getTime()` on the two ISO timestamps the fixtures use. -/
def dp0 : DateParse := fun s =>
  if s = "1970-01-01T00:00:00.100Z" then some 100
  else if s = "1970-01-01T00:00:00.050Z" then some 50
  else none

/-- The empty store. -/
def st0 : Store := { sessions := [], projects := [], conversations := [] }

/-- An environment with one Claude transcript whose working directory `/p`
is the agent's registered working directory. -/
def env1 : Env :=
  { registry := some { workingDirectory := some "/p", firstSessionWd := none, prefWd := none }
    live := none
    claudeFiles := [{ path := "/f.jsonl", content := some "\x7b\"cwd\":\"/p\"\x7d" }]
    codexFiles := [] }

/-- An environment with one live session for agent `a` and no transcripts. -/
def env2 : Env :=
  { registry := none
    live := some [{ agentId := "a", id := "s1", name := "sess", workingDirectory := some "/q",
                    createdAt := "1970-01-01T00:00:00.100Z", status := "active" }]
    claudeFiles := []
    codexFiles := [] }

/-- A store behavior in which only the session write `s1` throws. -/
def sfSessionFail : StoreFail :=
  { failSession := fun sid => sid = "s1"
    failProject := fun _ => false
    failConversation := fun _ => false
    failListing := false }

/-- The outcome of the engine on the `env1` fixture with an empty request
(one discovered, matched and inserted Claude conversation). -/
def out1 : BackfillReport × Store × List WriteOp :=
  match backfillAgentMemory jp0 dp0 env1 noFail st0 "a" {} with
  | .ok o => o
  | .error _ => (emptyReport "a" false 5000, st0, [])

/-- The outcome of the engine on `env1` with an explicit dry-run request. -/
def out1d : BackfillReport × Store × List WriteOp :=
  match backfillAgentMemory jp0 dp0 env1 noFail st0 "a" { dryRun := some true } with
  | .ok o => o
  | .error _ => (emptyReport "a" true 5000, st0, [])

/-- The outcome of the engine on `env1` with an explicit apply request. -/
def out1a : BackfillReport × Store × List WriteOp :=
  match backfillAgentMemory jp0 dp0 env1 noFail st0 "a" { dryRun := some false } with
  | .ok o => o
  | .error _ => (emptyReport "a" false 5000, st0, [])

/-- An 81-line Claude transcript: a large timestamp on the first line, then
79 malformed filler lines, then a smaller timestamp on the last line (which
is outside the 80-line metadata prefix but inside the backward scan). -/
def lines81 : List String :=
  "\x7b\"timestamp\":\"1970-01-01T00:00:00.100Z\"\x7d" ::
    (List.replicate 79 "x" ++ ["\x7b\"timestamp\":\"1970-01-01T00:00:00.050Z\"\x7d"])

/-! # Theorems -/

/-! ## Loop characterizations -/

theorem getStats_updStats (m : SourcesMap) (s t : ConversationSource)
    (f : SourceStats → SourceStats) :
    getStats (updStats m s f) t = if t = s then f (getStats m t) else getStats m t := by
  cases s <;> cases t <;> simp [getStats, updStats]

theorem countSource_cons (s : ConversationSource) (x : DiscoveredConversation)
    (xs : List DiscoveredConversation) :
    countSource s (x :: xs) = (if x.source = s then 1 else 0) + countSource s xs := by
  by_cases h : x.source = s <;> simp [countSource, List.filter_cons, h, Nat.add_comm]

@[simp] theorem noFail_failSession (s : String) : noFail.failSession s = false := rfl

@[simp] theorem noFail_failProject (p : String) : noFail.failProject p = false := rfl

@[simp] theorem noFail_failConversation (f : String) : noFail.failConversation f = false := rfl

@[simp] theorem noFail_failListing : noFail.failListing = false := rfl

theorem sessionLoop_no_writes (dp : DateParse) (sf : StoreFail) (agentId : String)
    (sessions : List LiveSession) (seen : Nat) (wds : List String) (st : Store)
    (log : List WriteOp) :
    sessionLoop dp sf agentId false sessions seen wds st log =
      (sessionSeen agentId sessions seen, sessionWds agentId sessions wds, st, log) := by
  induction sessions generalizing seen wds with
  | nil => simp [sessionLoop, sessionSeen, sessionWds]
  | cons s rest ih =>
    by_cases h : s.agentId = agentId <;>
      simp [sessionLoop, sessionSeen, sessionWds, h, ih]

theorem sessionLoop_noFail_seen_wds (dp : DateParse) (agentId : String) (aw : Bool)
    (sessions : List LiveSession) (seen : Nat) (wds : List String) (st : Store)
    (log : List WriteOp) :
    (sessionLoop dp noFail agentId aw sessions seen wds st log).1 =
        sessionSeen agentId sessions seen ∧
    (sessionLoop dp noFail agentId aw sessions seen wds st log).2.1 =
        sessionWds agentId sessions wds := by
  induction sessions generalizing seen wds st log with
  | nil => simp [sessionLoop, sessionSeen, sessionWds]
  | cons s rest ih =>
    by_cases h : s.agentId = agentId
    · cases aw <;> simp [sessionLoop, sessionSeen, sessionWds, h, ih]
    · cases aw <;> simp [sessionLoop, sessionSeen, sessionWds, h, ih]

theorem sessionLoop_store_frame (dp : DateParse) (sf : StoreFail) (agentId : String)
    (aw : Bool) (sessions : List LiveSession) (seen : Nat) (wds : List String) (st : Store)
    (log : List WriteOp) :
    (sessionLoop dp sf agentId aw sessions seen wds st log).2.2.1.projects = st.projects ∧
    (sessionLoop dp sf agentId aw sessions seen wds st log).2.2.1.conversations =
      st.conversations := by
  induction sessions generalizing seen wds st log with
  | nil => simp [sessionLoop]
  | cons s rest ih =>
    by_cases h : s.agentId = agentId
    · cases aw
      · simp [sessionLoop, h, ih]
      · by_cases hf : sf.failSession s.id
        · simp [sessionLoop, h, hf]
        · simp [sessionLoop, h, hf, ih, recordSessionStore]
    · simp [sessionLoop, h, ih]

theorem sessionLoop_log_shape (dp : DateParse) (sf : StoreFail) (agentId : String)
    (aw : Bool) (sessions : List LiveSession) (seen : Nat) (wds : List String) (st : Store)
    (log : List WriteOp) :
    ∀ op ∈ (sessionLoop dp sf agentId aw sessions seen wds st log).2.2.2,
      op ∈ log ∨ ∃ sid, op = .wSession sid := by
  induction sessions generalizing seen wds st log with
  | nil => simp [sessionLoop]; exact fun op h => Or.inl h
  | cons s rest ih =>
    intro op hop
    by_cases h : s.agentId = agentId
    · cases aw
      · simp only [sessionLoop, h] at hop
        · simp at hop
          exact ih _ _ _ _ op (by simpa [h] using hop)
      · by_cases hf : sf.failSession s.id
        · simp [sessionLoop, h, hf] at hop
          rcases hop with hop | hop
          · exact Or.inl hop
          · exact Or.inr ⟨s.id, hop⟩
        · simp only [sessionLoop, h, hf] at hop
          have := ih (seen + 1)
            (match s.workingDirectory with
              | some w => if w = "" then wds else setAdd wds (normalizePathForMatch w)
              | none => wds)
            (recordSessionStore st
              { session_id := s.id, session_name := s.name, agent_id := agentId,
                working_directory := s.workingDirectory, started_at := dp s.createdAt,
                status := s.status })
            (log ++ [.wSession s.id]) op (by simpa [h, hf] using hop)
          rcases this with hin | hex
          · rcases List.mem_append.mp hin with hin | hin
            · exact Or.inl hin
            · simp at hin
              exact Or.inr ⟨s.id, hin⟩
          · exact Or.inr hex
    · exact ih _ _ _ _ op (by simpa [sessionLoop, h] using hop)

theorem classifyLoop_eq (w : List String) (items : List DiscoveredConversation)
    (r : BackfillReport) (m : List DiscoveredConversation) :
    classifyLoop w items r m = (classifyReport w items r, m ++ matchedOf w items) := by
  induction items generalizing r m with
  | nil => simp [classifyLoop, classifyReport, matchedOf]
  | cons item rest ih =>
    cases hnc : normCwd item.cwd with
    | none => simp [classifyLoop, classifyReport, matchedOf, hnc, ih]
    | some nc =>
      by_cases hc : ¬nc = "" ∧ nc ∈ w <;>
        simp [classifyLoop, classifyReport, matchedOf, hnc, hc, ih]

theorem matchedOf_nil (w : List String) : matchedOf w [] = [] := rfl

theorem matchedOf_cons (w : List String) (item : DiscoveredConversation)
    (rest : List DiscoveredConversation) :
    matchedOf w (item :: rest) =
      (match normCwd item.cwd with
        | some nc =>
          if nc ≠ "" ∧ w.contains nc then { item with cwd := some nc } :: matchedOf w rest
          else matchedOf w rest
        | none => matchedOf w rest) := by
  cases hnc : normCwd item.cwd with
  | none => simp [matchedOf, List.filterMap_cons, hnc]
  | some nc =>
    by_cases hc : ¬nc = "" ∧ nc ∈ w <;> simp [matchedOf, List.filterMap_cons, hnc, hc]

theorem classifyReport_total_matched (w : List String) (items : List DiscoveredConversation)
    (r : BackfillReport) :
    (classifyReport w items r).total_matched = r.total_matched + (matchedOf w items).length := by
  induction items generalizing r with
  | nil => simp [classifyReport, matchedOf_nil]
  | cons item rest ih =>
    rw [matchedOf_cons]
    cases hnc : normCwd item.cwd with
    | none => simp [classifyReport, hnc, ih]
    | some nc =>
      by_cases hc : ¬nc = "" ∧ nc ∈ w <;> simp [classifyReport, hnc, hc, ih] <;> omega

theorem classifyReport_total_sum (w : List String) (items : List DiscoveredConversation)
    (r : BackfillReport) :
    (classifyReport w items r).total_unmapped + (matchedOf w items).length =
      r.total_unmapped + items.length := by
  induction items generalizing r with
  | nil => simp [classifyReport, matchedOf_nil]
  | cons item rest ih =>
    rw [matchedOf_cons]
    cases hnc : normCwd item.cwd with
    | none =>
      simp only [classifyReport, hnc]
      have := ih
        { r with
          sources := updStats r.sources item.source fun s => { s with unmapped := s.unmapped + 1 }
          total_unmapped := r.total_unmapped + 1
          unmapped_examples := pushExample r.unmapped_examples item.jsonlFile }
      simp at this
      simp [this]
      omega
    | some nc =>
      by_cases hc : ¬nc = "" ∧ nc ∈ w
      · simp only [classifyReport, hnc, hc, if_true]
        have := ih
          { r with
            sources := updStats r.sources item.source fun s => { s with matched := s.matched + 1 }
            total_matched := r.total_matched + 1 }
        simp at this
        simp [hc]
        omega
      · simp only [classifyReport, hnc, hc, if_false]
        have := ih
          { r with
            sources := updStats r.sources item.source fun s => { s with unmapped := s.unmapped + 1 }
            total_unmapped := r.total_unmapped + 1
            unmapped_examples := pushExample r.unmapped_examples item.jsonlFile }
        simp at this
        simp [hc]
        omega

theorem classifyReport_source_matched (w : List String) (items : List DiscoveredConversation)
    (r : BackfillReport) (t : ConversationSource) :
    (getStats (classifyReport w items r).sources t).matched =
      (getStats r.sources t).matched + countSource t (matchedOf w items) := by
  induction items generalizing r with
  | nil => simp [classifyReport, matchedOf_nil, countSource]
  | cons item rest ih =>
    rw [matchedOf_cons]
    cases hnc : normCwd item.cwd with
    | none =>
      simp only [classifyReport, hnc]
      rw [ih, getStats_updStats]
      by_cases ht : t = item.source <;> simp [ht]
    | some nc =>
      simp only [classifyReport, hnc]
      split_ifs with hc
      · rw [ih, getStats_updStats, countSource_cons]
        by_cases ht : t = item.source
        · simp [ht]
          omega
        · simp [ht, Ne.symm ht]
      · rw [ih, getStats_updStats]
        by_cases ht : t = item.source <;> simp [ht]

theorem classifyReport_preserved (w : List String) (items : List DiscoveredConversation)
    (r : BackfillReport) :
    (classifyReport w items r).success = r.success ∧
    (classifyReport w items r).agent_id = r.agent_id ∧
    (classifyReport w items r).mode = r.mode ∧
    (classifyReport w items r).total_discovered = r.total_discovered ∧
    (classifyReport w items r).total_existing = r.total_existing ∧
    (classifyReport w items r).total_inserted = r.total_inserted ∧
    (classifyReport w items r).max_files_applied = r.max_files_applied ∧
    (classifyReport w items r).truncated = r.truncated ∧
    (classifyReport w items r).working_directories = r.working_directories ∧
    (classifyReport w items r).active_sessions_seen = r.active_sessions_seen ∧
    (classifyReport w items r).existing_examples = r.existing_examples ∧
    (classifyReport w items r).inserted_examples = r.inserted_examples ∧
    ∀ t, (getStats (classifyReport w items r).sources t).discovered =
          (getStats r.sources t).discovered ∧
        (getStats (classifyReport w items r).sources t).existing =
          (getStats r.sources t).existing ∧
        (getStats (classifyReport w items r).sources t).inserted =
          (getStats r.sources t).inserted := by
  induction items generalizing r with
  | nil => simp [classifyReport]
  | cons item rest ih =>
    cases hnc : normCwd item.cwd with
    | none =>
      simp only [classifyReport, hnc]
      obtain ⟨p1, p2, p3, p4, p5, p6, p7, p8, p9, p10, p11, p12, p13⟩ := ih
        { r with
          sources := updStats r.sources item.source fun s => { s with unmapped := s.unmapped + 1 }
          total_unmapped := r.total_unmapped + 1
          unmapped_examples := pushExample r.unmapped_examples item.jsonlFile }
      refine ⟨by simpa using p1, by simpa using p2, by simpa using p3, by simpa using p4,
        by simpa using p5, by simpa using p6, by simpa using p7, by simpa using p8,
        by simpa using p9, by simpa using p10, by simpa using p11, by simpa using p12, ?_⟩
      intro t
      obtain ⟨q1, q2, q3⟩ := p13 t
      by_cases ht : t = item.source
      · simp [q1, q2, q3, getStats_updStats, if_pos ht]
      · simp [q1, q2, q3, getStats_updStats, if_neg ht]
    | some nc =>
      simp only [classifyReport, hnc]
      split_ifs with hc
      · obtain ⟨p1, p2, p3, p4, p5, p6, p7, p8, p9, p10, p11, p12, p13⟩ := ih
          { r with
            sources := updStats r.sources item.source fun s => { s with matched := s.matched + 1 }
            total_matched := r.total_matched + 1 }
        refine ⟨by simpa using p1, by simpa using p2, by simpa using p3, by simpa using p4,
          by simpa using p5, by simpa using p6, by simpa using p7, by simpa using p8,
          by simpa using p9, by simpa using p10, by simpa using p11, by simpa using p12, ?_⟩
        intro t
        obtain ⟨q1, q2, q3⟩ := p13 t
        by_cases ht : t = item.source
        · simp [q1, q2, q3, getStats_updStats, if_pos ht]
        · simp [q1, q2, q3, getStats_updStats, if_neg ht]
      · obtain ⟨p1, p2, p3, p4, p5, p6, p7, p8, p9, p10, p11, p12, p13⟩ := ih
          { r with
            sources := updStats r.sources item.source fun s => { s with unmapped := s.unmapped + 1 }
            total_unmapped := r.total_unmapped + 1
            unmapped_examples := pushExample r.unmapped_examples item.jsonlFile }
        refine ⟨by simpa using p1, by simpa using p2, by simpa using p3, by simpa using p4,
          by simpa using p5, by simpa using p6, by simpa using p7, by simpa using p8,
          by simpa using p9, by simpa using p10, by simpa using p11, by simpa using p12, ?_⟩
        intro t
        obtain ⟨q1, q2, q3⟩ := p13 t
        by_cases ht : t = item.source
        · simp [q1, q2, q3, getStats_updStats, if_pos ht]
        · simp [q1, q2, q3, getStats_updStats, if_neg ht]

theorem persistLoop_noFail_eq (dry : Bool) (existingFiles : List String)
    (items : List DiscoveredConversation) (r : BackfillReport) (st : Store)
    (log : List WriteOp) :
    persistLoop noFail dry existingFiles items r st log =
      .ok (persistReport existingFiles items r, persistStoreF dry existingFiles items st,
        persistLogF dry existingFiles items log) := by
  induction items generalizing r st log with
  | nil => simp [persistLoop, persistReport, persistStoreF, persistLogF]
  | cons item rest ih =>
    by_cases h : item.jsonlFile ∈ existingFiles
    · simp [persistLoop, persistReport, persistStoreF, persistLogF, h, ih]
    · cases hcwd : item.cwd with
      | none => cases dry <;> simp [persistLoop, persistReport, persistStoreF, persistLogF, h, hcwd, ih]
      | some cwd =>
        cases dry with
        | true => simp [persistLoop, persistReport, persistStoreF, persistLogF, h, hcwd, ih]
        | false =>
          by_cases hz : cwd = "" <;>
            simp [persistLoop, persistReport, persistStoreF, persistLogF, h, hcwd, hz, ih]

theorem persistReport_counts (E : List String) (items : List DiscoveredConversation)
    (r : BackfillReport) :
    (persistReport E items r).total_existing = r.total_existing + (existingItems E items).length ∧
    (persistReport E items r).total_inserted = r.total_inserted + (newItems E items).length ∧
    ∀ t, (getStats (persistReport E items r).sources t).existing =
          (getStats r.sources t).existing + countSource t (existingItems E items) ∧
        (getStats (persistReport E items r).sources t).inserted =
          (getStats r.sources t).inserted + countSource t (newItems E items) := by
  induction items generalizing r with
  | nil => simp [persistReport, existingItems, newItems, countSource]
  | cons item rest ih =>
    by_cases h : item.jsonlFile ∈ E
    · obtain ⟨h1, h2, h3⟩ := ih
        { r with
          sources := updStats r.sources item.source fun s => { s with existing := s.existing + 1 }
          total_existing := r.total_existing + 1
          existing_examples := pushExample r.existing_examples item.jsonlFile }
      refine ⟨?_, ?_, ?_⟩
      · simp [persistReport, existingItems, List.filter_cons, h] at h1 ⊢
        omega
      · simp [persistReport, newItems, List.filter_cons, h] at h2 ⊢
        exact h2
      · intro t
        obtain ⟨q1, q2⟩ := h3 t
        rcases eq_or_ne t item.source with ht | ht
        · subst ht
          constructor
          · simp [persistReport, existingItems, List.filter_cons, h, q1, getStats_updStats,
              countSource_cons]
            omega
          · simp [persistReport, newItems, List.filter_cons, h, q2, getStats_updStats]
        · constructor
          · simp [persistReport, existingItems, List.filter_cons, h, q1, getStats_updStats,
              if_neg ht, countSource_cons, if_neg (Ne.symm ht)]
          · simp [persistReport, newItems, List.filter_cons, h, q2, getStats_updStats, if_neg ht]
    · obtain ⟨h1, h2, h3⟩ := ih
        { r with
          sources := updStats r.sources item.source fun s => { s with inserted := s.inserted + 1 }
          total_inserted := r.total_inserted + 1
          inserted_examples := pushExample r.inserted_examples item.jsonlFile }
      refine ⟨?_, ?_, ?_⟩
      · simp [persistReport, existingItems, List.filter_cons, h] at h1 ⊢
        exact h1
      · simp [persistReport, newItems, List.filter_cons, h] at h2 ⊢
        omega
      · intro t
        obtain ⟨q1, q2⟩ := h3 t
        rcases eq_or_ne t item.source with ht | ht
        · subst ht
          constructor
          · simp [persistReport, existingItems, List.filter_cons, h, q1, getStats_updStats]
          · simp [persistReport, newItems, List.filter_cons, h, q2, getStats_updStats,
              countSource_cons]
            omega
        · constructor
          · simp [persistReport, existingItems, List.filter_cons, h, q1, getStats_updStats, if_neg ht]
          · simp [persistReport, newItems, List.filter_cons, h, q2, getStats_updStats,
              if_neg ht, countSource_cons, if_neg (Ne.symm ht)]

theorem persistReport_preserved (E : List String) (items : List DiscoveredConversation)
    (r : BackfillReport) :
    (persistReport E items r).success = r.success ∧
    (persistReport E items r).agent_id = r.agent_id ∧
    (persistReport E items r).mode = r.mode ∧
    (persistReport E items r).total_discovered = r.total_discovered ∧
    (persistReport E items r).total_matched = r.total_matched ∧
    (persistReport E items r).total_unmapped = r.total_unmapped ∧
    (persistReport E items r).max_files_applied = r.max_files_applied ∧
    (persistReport E items r).truncated = r.truncated ∧
    (persistReport E items r).working_directories = r.working_directories ∧
    (persistReport E items r).active_sessions_seen = r.active_sessions_seen ∧
    (persistReport E items r).unmapped_examples = r.unmapped_examples ∧
    ∀ t, (getStats (persistReport E items r).sources t).discovered =
          (getStats r.sources t).discovered ∧
        (getStats (persistReport E items r).sources t).matched =
          (getStats r.sources t).matched ∧
        (getStats (persistReport E items r).sources t).unmapped =
          (getStats r.sources t).unmapped := by
  induction items generalizing r with
  | nil => simp [persistReport]
  | cons item rest ih =>
    by_cases h : item.jsonlFile ∈ E
    · obtain ⟨p1, p2, p3, p4, p5, p6, p7, p8, p9, p10, p11, p12⟩ := ih
        { r with
          sources := updStats r.sources item.source fun s => { s with existing := s.existing + 1 }
          total_existing := r.total_existing + 1
          existing_examples := pushExample r.existing_examples item.jsonlFile }
      refine ⟨by simpa [persistReport, h] using p1, by simpa [persistReport, h] using p2,
        by simpa [persistReport, h] using p3, by simpa [persistReport, h] using p4,
        by simpa [persistReport, h] using p5, by simpa [persistReport, h] using p6,
        by simpa [persistReport, h] using p7, by simpa [persistReport, h] using p8,
        by simpa [persistReport, h] using p9, by simpa [persistReport, h] using p10,
        by simpa [persistReport, h] using p11, ?_⟩
      intro t
      obtain ⟨q1, q2, q3⟩ := p12 t
      by_cases ht : t = item.source
      · simp [persistReport, h, q1, q2, q3, getStats_updStats, if_pos ht]
      · simp [persistReport, h, q1, q2, q3, getStats_updStats, if_neg ht]
    · obtain ⟨p1, p2, p3, p4, p5, p6, p7, p8, p9, p10, p11, p12⟩ := ih
        { r with
          sources := updStats r.sources item.source fun s => { s with inserted := s.inserted + 1 }
          total_inserted := r.total_inserted + 1
          inserted_examples := pushExample r.inserted_examples item.jsonlFile }
      refine ⟨by simpa [persistReport, h] using p1, by simpa [persistReport, h] using p2,
        by simpa [persistReport, h] using p3, by simpa [persistReport, h] using p4,
        by simpa [persistReport, h] using p5, by simpa [persistReport, h] using p6,
        by simpa [persistReport, h] using p7, by simpa [persistReport, h] using p8,
        by simpa [persistReport, h] using p9, by simpa [persistReport, h] using p10,
        by simpa [persistReport, h] using p11, ?_⟩
      intro t
      obtain ⟨q1, q2, q3⟩ := p12 t
      by_cases ht : t = item.source
      · simp [persistReport, h, q1, q2, q3, getStats_updStats, if_pos ht]
      · simp [persistReport, h, q1, q2, q3, getStats_updStats, if_neg ht]

theorem bumpDiscovered_discovered (items : List DiscoveredConversation) (r : BackfillReport)
    (t : ConversationSource) :
    (getStats (bumpDiscovered r items).sources t).discovered =
      (getStats r.sources t).discovered + countSource t items := by
  induction items generalizing r with
  | nil => simp [bumpDiscovered, countSource]
  | cons item rest ih =>
    have : bumpDiscovered r (item :: rest) =
        bumpDiscovered
          { r with sources := updStats r.sources item.source fun s =>
              { s with discovered := s.discovered + 1 } }
          rest := by
      simp [bumpDiscovered]
    rw [this, ih, countSource_cons, getStats_updStats]
    rcases eq_or_ne t item.source with ht | ht
    · subst ht
      simp
      omega
    · simp [if_neg ht, if_neg (Ne.symm ht)]

theorem bumpDiscovered_preserved (items : List DiscoveredConversation) (r : BackfillReport) :
    (bumpDiscovered r items).success = r.success ∧
    (bumpDiscovered r items).agent_id = r.agent_id ∧
    (bumpDiscovered r items).mode = r.mode ∧
    (bumpDiscovered r items).total_discovered = r.total_discovered ∧
    (bumpDiscovered r items).total_matched = r.total_matched ∧
    (bumpDiscovered r items).total_unmapped = r.total_unmapped ∧
    (bumpDiscovered r items).total_existing = r.total_existing ∧
    (bumpDiscovered r items).total_inserted = r.total_inserted ∧
    (bumpDiscovered r items).max_files_applied = r.max_files_applied ∧
    (bumpDiscovered r items).truncated = r.truncated ∧
    (bumpDiscovered r items).working_directories = r.working_directories ∧
    (bumpDiscovered r items).active_sessions_seen = r.active_sessions_seen ∧
    (bumpDiscovered r items).unmapped_examples = r.unmapped_examples ∧
    (bumpDiscovered r items).existing_examples = r.existing_examples ∧
    (bumpDiscovered r items).inserted_examples = r.inserted_examples ∧
    ∀ t, (getStats (bumpDiscovered r items).sources t).matched =
          (getStats r.sources t).matched ∧
        (getStats (bumpDiscovered r items).sources t).unmapped =
          (getStats r.sources t).unmapped ∧
        (getStats (bumpDiscovered r items).sources t).existing =
          (getStats r.sources t).existing ∧
        (getStats (bumpDiscovered r items).sources t).inserted =
          (getStats r.sources t).inserted := by
  induction items generalizing r with
  | nil => simp [bumpDiscovered]
  | cons item rest ih =>
    have hstep : bumpDiscovered r (item :: rest) =
        bumpDiscovered
          { r with sources := updStats r.sources item.source fun s =>
              { s with discovered := s.discovered + 1 } }
          rest := by
      simp [bumpDiscovered]
    obtain ⟨p1, p2, p3, p4, p5, p6, p7, p8, p9, p10, p11, p12, p13, p14, p15, p16⟩ := ih
      { r with sources := updStats r.sources item.source fun s =>
          { s with discovered := s.discovered + 1 } }
    rw [hstep]
    refine ⟨by simpa using p1, by simpa using p2, by simpa using p3, by simpa using p4,
      by simpa using p5, by simpa using p6, by simpa using p7, by simpa using p8,
      by simpa using p9, by simpa using p10, by simpa using p11, by simpa using p12,
      by simpa using p13, by simpa using p14, by simpa using p15, ?_⟩
    intro t
    obtain ⟨q1, q2, q3, q4⟩ := p16 t
    by_cases ht : t = item.source
    · simp [q1, q2, q3, q4, getStats_updStats, if_pos ht]
    · simp [q1, q2, q3, q4, getStats_updStats, if_neg ht]

/-! ## Engine-level lemmas and claim theorems -/

theorem backfillAgentMemory_congr (jp : JParse) (dp : DateParse) (env : Env) (sf : StoreFail)
    (st : Store) (agentId : String) (r r' : BackfillRequest)
    (hs : effectiveSources r = effectiveSources r')
    (hd : effectiveDryRun r = effectiveDryRun r')
    (hm : effectiveMaxFiles r = effectiveMaxFiles r') :
    backfillAgentMemory jp dp env sf st agentId r =
      backfillAgentMemory jp dp env sf st agentId r' := by
  simp only [backfillAgentMemory, hs, hd, hm]

/-- Claim C9: the engine's report (in fact its entire outcome: report, store
state and write log) is identical whatever the value of the `force` flag —
`force` is declared in `BackfillRequest` but never read by
`backfillAgentMemory`; it only gates the caller's own pre-check. -/
theorem c9_force_has_no_effect (jp : JParse) (dp : DateParse) (env : Env) (sf : StoreFail)
    (st : Store) (agentId : String) (req : BackfillRequest) (f1 f2 : Option Bool) :
    backfillAgentMemory jp dp env sf st agentId { req with force := f1 } =
      backfillAgentMemory jp dp env sf st agentId { req with force := f2 } :=
  backfillAgentMemory_congr jp dp env sf st agentId _ _
    (by simp [effectiveSources]) (by simp [effectiveDryRun]) (by simp [effectiveMaxFiles])

/-- Claim C1 (counterexample): with `dryRun` omitted from the request, the
engine does NOT behave as a dry-run — on a request `{}` it reports mode
`"apply"` and performs the store writes `recordProject`/`recordConversation`
for a matched new conversation.  (`const dryRun = request.dryRun === true`
makes the omitted field default to apply mode.) -/
theorem c1_counterexample :
    (backfillAgentMemory jp0 dp0 env1 noFail st0 "a" {}).map
        (fun o => (o.1.mode, o.2.2)) =
      .ok ("apply", [.wProject "/p", .wConversation "/f.jsonl"]) := by
  rfl

/-- Claim C1 (amended): a `BackfillRequest` with `dryRun` omitted behaves
exactly like one with `dryRun = false`: the engine runs in apply mode
(mode `"apply"`, writes performed); dry-run must be requested explicitly
with `dryRun = true`. -/
theorem c1_dryRun_omitted_is_apply (jp : JParse) (dp : DateParse) (env : Env)
    (sf : StoreFail) (st : Store) (agentId : String) (req : BackfillRequest)
    (h : req.dryRun = none) :
    backfillAgentMemory jp dp env sf st agentId req =
      backfillAgentMemory jp dp env sf st agentId { req with dryRun := some false } :=
  backfillAgentMemory_congr jp dp env sf st agentId _ _
    (by simp [effectiveSources]) (by simp [effectiveDryRun, h]) (by simp [effectiveMaxFiles])

/-- Witness for the amended C1 at a concrete input. -/
theorem c1_dryRun_omitted_is_apply_witness :
    backfillAgentMemory jp0 dp0 env1 noFail st0 "a" {} =
      backfillAgentMemory jp0 dp0 env1 noFail st0 "a" { dryRun := some false } :=
  c1_dryRun_omitted_is_apply jp0 dp0 env1 noFail st0 "a" {} rfl

theorem getStats_emptyReport (agentId : String) (dry : Bool) (maxF : Nat)
    (t : ConversationSource) :
    getStats (emptyReport agentId dry maxF).sources t = emptySourceStats := by
  cases t <;> simp [getStats, emptyReport]

theorem preReport_spec (agentId : String) (dry : Bool) (maxF : Nat)
    (fr : SessionDiscoveryResult) (all : List DiscoveredConversation) :
    (preReport agentId dry maxF fr all).total_discovered = all.length ∧
    (preReport agentId dry maxF fr all).total_matched = 0 ∧
    (preReport agentId dry maxF fr all).total_unmapped = 0 ∧
    (preReport agentId dry maxF fr all).total_existing = 0 ∧
    (preReport agentId dry maxF fr all).total_inserted = 0 ∧
    (preReport agentId dry maxF fr all).truncated = decide (all.length > maxF) ∧
    (preReport agentId dry maxF fr all).working_directories = fr.workingDirectories ∧
    (preReport agentId dry maxF fr all).success = true ∧
    (∀ t, (getStats (preReport agentId dry maxF fr all).sources t).discovered =
          countSource t all ∧
        (getStats (preReport agentId dry maxF fr all).sources t).matched = 0 ∧
        (getStats (preReport agentId dry maxF fr all).sources t).unmapped = 0 ∧
        (getStats (preReport agentId dry maxF fr all).sources t).existing = 0 ∧
        (getStats (preReport agentId dry maxF fr all).sources t).inserted = 0) := by
  simp only [preReport]
  generalize hgen : ({ emptyReport agentId dry maxF with
      active_sessions_seen := fr.activeSessionsSeen
      working_directories := fr.workingDirectories } : BackfillReport) = r1
  obtain ⟨p1, p2, p3, p4, p5, p6, p7, p8, p9, p10, p11, p12, p13, p14, p15, p16⟩ :=
    bumpDiscovered_preserved all r1
  have hd := fun t => bumpDiscovered_discovered all r1 t
  have e_tm : r1.total_matched = 0 := by rw [← hgen]; try rfl
  have e_tu : r1.total_unmapped = 0 := by rw [← hgen]; try rfl
  have e_te : r1.total_existing = 0 := by rw [← hgen]; try rfl
  have e_ti : r1.total_inserted = 0 := by rw [← hgen]; try rfl
  have e_tr : r1.truncated = false := by rw [← hgen]; try rfl
  have e_wd : r1.working_directories = fr.workingDirectories := by rw [← hgen]; try rfl
  have e_su : r1.success = true := by rw [← hgen]; try rfl
  have e_st : ∀ t, getStats r1.sources t = emptySourceStats := by
    intro t
    rw [← hgen]
    cases t <;> rfl
  by_cases h : all.length > maxF
  · refine ⟨by simp [h], by simp [h, p5, e_tm], by simp [h, p6, e_tu], by simp [h, p7, e_te],
      by simp [h, p8, e_ti], by simp [h], by simp [h, p11, e_wd], by simp [h, p1, e_su], ?_⟩
    intro t
    obtain ⟨q1, q2, q3, q4⟩ := p16 t
    refine ⟨?_, ?_, ?_, ?_, ?_⟩ <;>
      simp [h, hd t, q1, q2, q3, q4, e_st, emptySourceStats]
  · refine ⟨by simp [h], by simp [h, p5, e_tm], by simp [h, p6, e_tu], by simp [h, p7, e_te],
      by simp [h, p8, e_ti], by simp [h, p10, e_tr], by simp [h, p11, e_wd],
      by simp [h, p1, e_su], ?_⟩
    intro t
    obtain ⟨q1, q2, q3, q4⟩ := p16 t
    refine ⟨?_, ?_, ?_, ?_, ?_⟩ <;>
      simp [h, hd t, q1, q2, q3, q4, e_st, emptySourceStats]

theorem persistLoop_ok_report (sf : StoreFail) (dry : Bool) (E : List String)
    (items : List DiscoveredConversation) (r : BackfillReport) (st : Store)
    (log : List WriteOp) (out : BackfillReport × Store × List WriteOp)
    (h : persistLoop sf dry E items r st log = .ok out) :
    out.1 = persistReport E items r := by
  induction items generalizing r st log with
  | nil =>
    simp [persistLoop] at h
    simp [persistReport, ← h]
  | cons item rest ih =>
    by_cases hm : item.jsonlFile ∈ E
    · have h' := h
      simp only [persistLoop] at h'
      rw [if_pos (by simpa using hm)] at h'
      rw [ih _ _ _ h']
      simp [persistReport, hm]
    · cases hcwd : item.cwd with
      | none =>
        have h' := h
        simp [persistLoop, hm, hcwd] at h'
        cases dry <;>
          · rw [ih _ _ _ h']
            simp [persistReport, hm, hcwd]
      | some cwd =>
        cases dry with
        | true =>
          have h' := h
          simp [persistLoop, hm, hcwd] at h'
          rw [ih _ _ _ h']
          simp [persistReport, hm, hcwd]
        | false =>
          by_cases hz : cwd = ""
          · have h' := h
            simp [persistLoop, hm, hcwd, hz] at h'
            rw [ih _ _ _ h']
            simp [persistReport, hm, hcwd, hz]
          · by_cases hfp : sf.failProject cwd
            · exfalso
              have h' := h
              simp [persistLoop, hm, hcwd, hz, hfp] at h'
            · by_cases hfc : sf.failConversation item.jsonlFile
              · exfalso
                have h' := h
                simp [persistLoop, hm, hcwd, hz, hfp, hfc] at h'
              · have h' := h
                simp [persistLoop, hm, hcwd, hz, hfp, hfc] at h'
                rw [ih _ _ _ h']
                simp [persistReport, hm, hcwd, hz]

theorem backfill_ok_destruct (jp : JParse) (dp : DateParse) (env : Env) (sf : StoreFail)
    (st : Store) (agentId : String) (req : BackfillRequest)
    (out : BackfillReport × Store × List WriteOp)
    (h : backfillAgentMemory jp dp env sf st agentId req = .ok out) :
    sf.failListing = false ∧
    persistLoop sf (effectiveDryRun req)
      (existingConvFiles
        (fetchWorkingDirectoriesForAgent dp env sf st agentId (!effectiveDryRun req)).2.1)
      (matchedOf
        (preReport agentId (effectiveDryRun req) (effectiveMaxFiles req)
          (fetchWorkingDirectoriesForAgent dp env sf st agentId (!effectiveDryRun req)).1
          (discoverConversations jp dp env (effectiveSources req))).working_directories
        (truncatedList (effectiveMaxFiles req)
          (discoverConversations jp dp env (effectiveSources req))))
      (classifyReport
        (preReport agentId (effectiveDryRun req) (effectiveMaxFiles req)
          (fetchWorkingDirectoriesForAgent dp env sf st agentId (!effectiveDryRun req)).1
          (discoverConversations jp dp env (effectiveSources req))).working_directories
        (truncatedList (effectiveMaxFiles req)
          (discoverConversations jp dp env (effectiveSources req)))
        (preReport agentId (effectiveDryRun req) (effectiveMaxFiles req)
          (fetchWorkingDirectoriesForAgent dp env sf st agentId (!effectiveDryRun req)).1
          (discoverConversations jp dp env (effectiveSources req))))
      (fetchWorkingDirectoriesForAgent dp env sf st agentId (!effectiveDryRun req)).2.1
      (fetchWorkingDirectoriesForAgent dp env sf st agentId (!effectiveDryRun req)).2.2 =
      .ok out := by
  by_cases hL : sf.failListing
  · simp [backfillAgentMemory, getExistingConversationFiles, hL] at h
  · refine ⟨by simp [hL], ?_⟩
    simpa [backfillAgentMemory, getExistingConversationFiles, hL, classifyLoop_eq] using h

theorem countSource_split (t : ConversationSource) (E : List String)
    (items : List DiscoveredConversation) :
    countSource t (existingItems E items) + countSource t (newItems E items) =
      countSource t items := by
  induction items with
  | nil => simp [countSource, existingItems, newItems]
  | cons i rest ih =>
    by_cases h : i.jsonlFile ∈ E <;> by_cases ht : i.source = t <;>
      simp [existingItems, newItems, List.filter_cons, h, countSource_cons, ht] at ih ⊢ <;>
      omega

theorem existing_new_length_split (E : List String) (items : List DiscoveredConversation) :
    (existingItems E items).length + (newItems E items).length = items.length := by
  induction items with
  | nil => simp [existingItems, newItems]
  | cons i rest ih =>
    by_cases h : i.jsonlFile ∈ E <;>
      simp [existingItems, newItems, List.filter_cons, h] at ih ⊢ <;> omega

theorem countSource_claude_add_codex (items : List DiscoveredConversation) :
    countSource .claude items + countSource .codex items = items.length := by
  induction items with
  | nil => simp [countSource]
  | cons i rest ih =>
    cases hs : i.source <;> simp [countSource_cons, hs] <;> omega

theorem truncatedList_length_le (maxF : Nat) (all : List DiscoveredConversation) :
    (truncatedList maxF all).length ≤ all.length := by
  by_cases h : all.length > maxF <;> simp [truncatedList, h] <;> omega

theorem c4_core (E w : List String) (T : List DiscoveredConversation)
    (R0 : BackfillReport)
    (hm0 : R0.total_matched = 0) (he0 : R0.total_existing = 0) (hi0 : R0.total_inserted = 0)
    (hsm : ∀ t, (getStats R0.sources t).matched = 0 ∧ (getStats R0.sources t).existing = 0 ∧
      (getStats R0.sources t).inserted = 0) :
    (∀ t, (getStats (persistReport E (matchedOf w T) (classifyReport w T R0)).sources t).matched =
        (getStats (persistReport E (matchedOf w T) (classifyReport w T R0)).sources t).existing +
        (getStats (persistReport E (matchedOf w T) (classifyReport w T R0)).sources t).inserted) ∧
    (persistReport E (matchedOf w T) (classifyReport w T R0)).total_matched =
      (persistReport E (matchedOf w T) (classifyReport w T R0)).total_existing +
      (persistReport E (matchedOf w T) (classifyReport w T R0)).total_inserted := by
  obtain ⟨e1, e2, e3⟩ := persistReport_counts E (matchedOf w T) (classifyReport w T R0)
  obtain ⟨-, -, -, -, p5, -, -, -, -, -, -, p12⟩ :=
    persistReport_preserved E (matchedOf w T) (classifyReport w T R0)
  obtain ⟨-, -, -, -, ce, ci, -, -, -, -, -, -, cp13⟩ :=
    classifyReport_preserved w T R0
  constructor
  · intro t
    obtain ⟨q1, q2⟩ := e3 t
    obtain ⟨-, m2, -⟩ := p12 t
    obtain ⟨-, cpe, cpi⟩ := cp13 t
    obtain ⟨hm, he, hi⟩ := hsm t
    rw [q1, q2, m2, classifyReport_source_matched, cpe, cpi, hm, he, hi,
      ← countSource_split t E (matchedOf w T)]
    omega
  · rw [e1, e2, p5, classifyReport_total_matched, ce, ci, hm0, he0, hi0,
      ← existing_new_length_split E (matchedOf w T)]
    omega

/-- Claim C4: in every report the engine returns, `matched = existing +
inserted` holds for each per-source counter block, and
`total_matched = total_existing + total_inserted`. -/
theorem c4_matched_eq_existing_add_inserted (jp : JParse) (dp : DateParse) (env : Env)
    (sf : StoreFail) (st : Store) (agentId : String) (req : BackfillRequest)
    (out : BackfillReport × Store × List WriteOp)
    (h : backfillAgentMemory jp dp env sf st agentId req = .ok out) :
    (∀ t, (getStats out.1.sources t).matched =
        (getStats out.1.sources t).existing + (getStats out.1.sources t).inserted) ∧
    out.1.total_matched = out.1.total_existing + out.1.total_inserted := by
  obtain ⟨hL, hp⟩ := backfill_ok_destruct jp dp env sf st agentId req out h
  have hrep := persistLoop_ok_report _ _ _ _ _ _ _ _ hp
  rw [hrep]
  obtain ⟨-, c2, -, c4, c5, -, -, -, c9⟩ := preReport_spec agentId
    (effectiveDryRun req) (effectiveMaxFiles req)
    (fetchWorkingDirectoriesForAgent dp env sf st agentId (!effectiveDryRun req)).1
    (discoverConversations jp dp env (effectiveSources req))
  exact c4_core _ _ _ _ c2 c4 c5 (fun t => ⟨(c9 t).2.1, (c9 t).2.2.2.1, (c9 t).2.2.2.2⟩)

theorem c5_core (E w : List String) (all : List DiscoveredConversation) (maxF : Nat)
    (R0 : BackfillReport)
    (hd : R0.total_discovered = all.length)
    (hm0 : R0.total_matched = 0) (hu0 : R0.total_unmapped = 0)
    (htr : R0.truncated = decide (all.length > maxF))
    (hds : ∀ t, (getStats R0.sources t).discovered = countSource t all) :
    (persistReport E (matchedOf w (truncatedList maxF all))
        (classifyReport w (truncatedList maxF all) R0)).total_discovered = all.length ∧
    (persistReport E (matchedOf w (truncatedList maxF all))
        (classifyReport w (truncatedList maxF all) R0)).total_discovered =
      (getStats (persistReport E (matchedOf w (truncatedList maxF all))
        (classifyReport w (truncatedList maxF all) R0)).sources .claude).discovered +
      (getStats (persistReport E (matchedOf w (truncatedList maxF all))
        (classifyReport w (truncatedList maxF all) R0)).sources .codex).discovered ∧
    (all.length > maxF →
      (persistReport E (matchedOf w (truncatedList maxF all))
        (classifyReport w (truncatedList maxF all) R0)).truncated = true) ∧
    (persistReport E (matchedOf w (truncatedList maxF all))
        (classifyReport w (truncatedList maxF all) R0)).total_matched +
      (persistReport E (matchedOf w (truncatedList maxF all))
        (classifyReport w (truncatedList maxF all) R0)).total_unmapped ≤
      (persistReport E (matchedOf w (truncatedList maxF all))
        (classifyReport w (truncatedList maxF all) R0)).total_discovered ∧
    ((persistReport E (matchedOf w (truncatedList maxF all))
        (classifyReport w (truncatedList maxF all) R0)).truncated = false →
      (persistReport E (matchedOf w (truncatedList maxF all))
          (classifyReport w (truncatedList maxF all) R0)).total_matched +
        (persistReport E (matchedOf w (truncatedList maxF all))
          (classifyReport w (truncatedList maxF all) R0)).total_unmapped =
        (persistReport E (matchedOf w (truncatedList maxF all))
          (classifyReport w (truncatedList maxF all) R0)).total_discovered) := by
  obtain ⟨-, -, -, p4, p5, p6, -, p8, -, -, -, p12⟩ :=
    persistReport_preserved E (matchedOf w (truncatedList maxF all))
      (classifyReport w (truncatedList maxF all) R0)
  obtain ⟨-, -, -, cp4, -, -, -, cp8, -, -, -, -, cp13⟩ :=
    classifyReport_preserved w (truncatedList maxF all) R0
  have hsum := classifyReport_total_sum w (truncatedList maxF all) R0
  have hmat := classifyReport_total_matched w (truncatedList maxF all) R0
  have hlen := truncatedList_length_le maxF all
  refine ⟨?_, ?_, ?_, ?_, ?_⟩
  · rw [p4, cp4, hd]
  · rw [p4, cp4, hd]
    obtain ⟨dc, -, -⟩ := p12 ConversationSource.claude
    obtain ⟨dx, -, -⟩ := p12 ConversationSource.codex
    obtain ⟨cdc, -, -⟩ := cp13 ConversationSource.claude
    obtain ⟨cdx, -, -⟩ := cp13 ConversationSource.codex
    rw [dc, dx, cdc, cdx, hds .claude, hds .codex, countSource_claude_add_codex]
  · intro hgt
    rw [p8, cp8, htr]
    simpa using hgt
  · rw [p4, cp4, hd, p5, p6, hmat, hm0]
    omega
  · intro hfalse
    rw [p8, cp8, htr] at hfalse
    have hng : ¬ all.length > maxF := by simpa using hfalse
    rw [p4, cp4, hd, p5, p6, hmat, hm0]
    have : (truncatedList maxF all).length = all.length := by
      simp [truncatedList, hng]
    omega

/-- Claim C5: in every report the engine returns, `total_discovered` is the
full pre-truncation discovery count and equals the sum of the per-source
`discovered` counters; when the discovered set exceeds `maxFiles` the report
is flagged truncated; and `total_matched + total_unmapped ≤
total_discovered`, with equality whenever `truncated = false`. -/
theorem c5_discovered_totals_and_truncation (jp : JParse) (dp : DateParse) (env : Env)
    (sf : StoreFail) (st : Store) (agentId : String) (req : BackfillRequest)
    (out : BackfillReport × Store × List WriteOp)
    (h : backfillAgentMemory jp dp env sf st agentId req = .ok out) :
    out.1.total_discovered = (discoverConversations jp dp env (effectiveSources req)).length ∧
    out.1.total_discovered =
      (getStats out.1.sources .claude).discovered +
      (getStats out.1.sources .codex).discovered ∧
    ((discoverConversations jp dp env (effectiveSources req)).length > effectiveMaxFiles req →
      out.1.truncated = true) ∧
    out.1.total_matched + out.1.total_unmapped ≤ out.1.total_discovered ∧
    (out.1.truncated = false →
      out.1.total_matched + out.1.total_unmapped = out.1.total_discovered) := by
  obtain ⟨hL, hp⟩ := backfill_ok_destruct jp dp env sf st agentId req out h
  have hrep := persistLoop_ok_report _ _ _ _ _ _ _ _ hp
  rw [hrep]
  obtain ⟨c1, c2, c3, -, -, c6, -, -, c9⟩ := preReport_spec agentId
    (effectiveDryRun req) (effectiveMaxFiles req)
    (fetchWorkingDirectoriesForAgent dp env sf st agentId (!effectiveDryRun req)).1
    (discoverConversations jp dp env (effectiveSources req))
  exact c5_core _ _ _ _ _ c1 c2 c3 c6 (fun t => (c9 t).1)

/-- Witness for C4 at a concrete input (`env1`, empty request). -/
theorem c4_witness :
    (getStats out1.1.sources .claude).matched =
      (getStats out1.1.sources .claude).existing + (getStats out1.1.sources .claude).inserted ∧
    out1.1.total_matched = out1.1.total_existing + out1.1.total_inserted :=
  ⟨(c4_matched_eq_existing_add_inserted jp0 dp0 env1 noFail st0 "a" {} out1 (by rfl)).1 .claude,
   (c4_matched_eq_existing_add_inserted jp0 dp0 env1 noFail st0 "a" {} out1 (by rfl)).2⟩

/-- Witness for C5 at a concrete input (`env1`, empty request). -/
theorem c5_witness :
    out1.1.total_discovered =
        (discoverConversations jp0 dp0 env1 (effectiveSources {})).length ∧
    out1.1.total_matched + out1.1.total_unmapped ≤ out1.1.total_discovered :=
  ⟨(c5_discovered_totals_and_truncation jp0 dp0 env1 noFail st0 "a" {} out1 (by rfl)).1,
   (c5_discovered_totals_and_truncation jp0 dp0 env1 noFail st0 "a" {} out1 (by rfl)).2.2.2.1⟩

theorem persistLoop_ok_log (sf : StoreFail) (dry : Bool) (E : List String)
    (items : List DiscoveredConversation) (r : BackfillReport) (st : Store)
    (log : List WriteOp) (out : BackfillReport × Store × List WriteOp)
    (h : persistLoop sf dry E items r st log = .ok out) :
    ∀ op ∈ out.2.2, op ∈ log ∨
      (∃ p, op = .wProject p ∧ sf.failProject p = false) ∨
      (∃ f, op = .wConversation f ∧ sf.failConversation f = false) := by
  induction items generalizing r st log with
  | nil =>
    simp [persistLoop] at h
    intro op hop
    rw [← h] at hop
    exact Or.inl hop
  | cons item rest ih =>
    by_cases hm : item.jsonlFile ∈ E
    · have h' := h
      simp only [persistLoop] at h'
      rw [if_pos (by simpa using hm)] at h'
      exact ih _ _ _ h'
    · cases hcwd : item.cwd with
      | none =>
        have h' := h
        simp [persistLoop, hm, hcwd] at h'
        cases dry <;> exact ih _ _ _ h'
      | some cwd =>
        cases dry with
        | true =>
          have h' := h
          simp [persistLoop, hm, hcwd] at h'
          exact ih _ _ _ h'
        | false =>
          by_cases hz : cwd = ""
          · have h' := h
            simp [persistLoop, hm, hcwd, hz] at h'
            exact ih _ _ _ h'
          · by_cases hfp : sf.failProject cwd
            · exfalso
              have h' := h
              simp [persistLoop, hm, hcwd, hz, hfp] at h'
            · by_cases hfc : sf.failConversation item.jsonlFile
              · exfalso
                have h' := h
                simp [persistLoop, hm, hcwd, hz, hfp, hfc] at h'
              · have h' := h
                simp [persistLoop, hm, hcwd, hz, hfp, hfc] at h'
                intro op hop
                rcases ih _ _ _ h' op hop with hin | hrest
                · rcases List.mem_append.mp hin with hin | hin
                  · exact Or.inl hin
                  · simp at hin
                    rcases hin with hin | hin
                    · exact Or.inr (Or.inl ⟨cwd, hin, by simpa using hfp⟩)
                    · exact Or.inr (Or.inr ⟨item.jsonlFile, hin, by simpa using hfc⟩)
                · exact Or.inr hrest

theorem fetchWds_log_shape (dp : DateParse) (env : Env) (sf : StoreFail) (st : Store)
    (agentId : String) (aw : Bool) :
    ∀ op ∈ (fetchWorkingDirectoriesForAgent dp env sf st agentId aw).2.2,
      ∃ sid, op = .wSession sid := by
  intro op hop
  cases hl : env.live with
  | none => simp [fetchWorkingDirectoriesForAgent, hl] at hop
  | some sessions =>
    simp only [fetchWorkingDirectoriesForAgent, hl] at hop
    rcases sessionLoop_log_shape dp sf agentId aw sessions 0 (registryWds env.registry) st []
        op hop with hin | hex
    · simp at hin
    · exact hex

/-- Claim C6 (counterexample): a thrown `recordSession` store write does NOT
propagate out of the engine — with a failing session write the engine still
returns a successful report (the failure is swallowed by the best-effort
`try`/`catch` around live-session discovery, lines 373–399). -/
theorem c6_counterexample :
    (backfillAgentMemory jp0 dp0 env2 sfSessionFail st0 "a" { dryRun := some false }).map
        (fun o => (o.1.success, o.2.2)) = .ok (true, [.wSession "s1"]) ∧
    sfSessionFail.failSession "s1" = true :=
  ⟨rfl, rfl⟩

/-- Claim C6 (amended): failures of the existing-files lookup and of the
writes `recordProject`/`recordConversation` propagate out of the engine —
whenever the engine returns a report, the lookup did not fail and every
attempted project/conversation write succeeded.  (A `recordSession` failure,
by contrast, is caught by the best-effort session discovery and does not
propagate; see the counterexample.) -/
theorem c6_store_failures_propagate (jp : JParse) (dp : DateParse) (env : Env)
    (sf : StoreFail) (st : Store) (agentId : String) (req : BackfillRequest)
    (out : BackfillReport × Store × List WriteOp)
    (h : backfillAgentMemory jp dp env sf st agentId req = .ok out) :
    sf.failListing = false ∧
    (∀ p, WriteOp.wProject p ∈ out.2.2 → sf.failProject p = false) ∧
    (∀ f, WriteOp.wConversation f ∈ out.2.2 → sf.failConversation f = false) := by
  obtain ⟨hL, hp⟩ := backfill_ok_destruct jp dp env sf st agentId req out h
  have hlog := persistLoop_ok_log _ _ _ _ _ _ _ _ hp
  have hses := fetchWds_log_shape dp env sf st agentId (!effectiveDryRun req)
  refine ⟨hL, ?_, ?_⟩
  · intro p hmem
    rcases hlog _ hmem with hin | h2 | h3
    · obtain ⟨sid, hsid⟩ := hses _ hin
      simp at hsid
    · obtain ⟨p', hp', hf⟩ := h2
      rw [WriteOp.wProject.injEq] at hp'
      rwa [hp']
    · obtain ⟨f, hf', -⟩ := h3
      simp at hf'
  · intro f hmem
    rcases hlog _ hmem with hin | h2 | h3
    · obtain ⟨sid, hsid⟩ := hses _ hin
      simp at hsid
    · obtain ⟨p', hp', -⟩ := h2
      simp at hp'
    · obtain ⟨f', hf', hf⟩ := h3
      rw [WriteOp.wConversation.injEq] at hf'
      rwa [hf']

/-- Witness for the amended C6 at a concrete input (`env1`, empty request,
where `wProject "/p"` is among the attempted writes). -/
theorem c6_store_failures_propagate_witness :
    noFail.failListing = false ∧ noFail.failProject "/p" = false :=
  ⟨(c6_store_failures_propagate jp0 dp0 env1 noFail st0 "a" {} out1 (by rfl)).1,
   (c6_store_failures_propagate jp0 dp0 env1 noFail st0 "a" {} out1 (by rfl)).2.1 "/p"
     (by decide)⟩

theorem persistStoreF_dry (E : List String) (items : List DiscoveredConversation) (st : Store) :
    persistStoreF true E items st = st := by
  induction items generalizing st with
  | nil => rfl
  | cons item rest ih =>
    by_cases hm : item.jsonlFile ∈ E <;> cases hcwd : item.cwd <;>
      simp [persistStoreF, hm, hcwd, ih]

theorem persistLogF_dry (E : List String) (items : List DiscoveredConversation)
    (log : List WriteOp) :
    persistLogF true E items log = log := by
  induction items generalizing log with
  | nil => rfl
  | cons item rest ih =>
    by_cases hm : item.jsonlFile ∈ E <;> cases hcwd : item.cwd <;>
      simp [persistLogF, hm, hcwd, ih]

theorem bumpDiscovered_mode (items : List DiscoveredConversation) (r : BackfillReport)
    (v : String) :
    bumpDiscovered { r with mode := v } items = { bumpDiscovered r items with mode := v } := by
  induction items generalizing r with
  | nil => rfl
  | cons i rest ih =>
    show bumpDiscovered
        { ({ r with sources := updStats r.sources i.source fun s =>
            { s with discovered := s.discovered + 1 } }) with mode := v } rest =
      { bumpDiscovered { r with sources := updStats r.sources i.source fun s =>
          { s with discovered := s.discovered + 1 } } rest with mode := v }
    exact ih _

theorem classifyReport_mode (w : List String) (T : List DiscoveredConversation)
    (r : BackfillReport) (v : String) :
    classifyReport w T { r with mode := v } = { classifyReport w T r with mode := v } := by
  induction T generalizing r with
  | nil => rfl
  | cons item rest ih =>
    cases hnc : normCwd item.cwd with
    | none =>
      simp only [classifyReport, hnc]
      exact ih { r with
        sources := updStats r.sources item.source fun s => { s with unmapped := s.unmapped + 1 }
        total_unmapped := r.total_unmapped + 1
        unmapped_examples := pushExample r.unmapped_examples item.jsonlFile }
    | some nc =>
      simp only [classifyReport, hnc]
      split_ifs with hc
      · exact ih { r with
          sources := updStats r.sources item.source fun s => { s with matched := s.matched + 1 }
          total_matched := r.total_matched + 1 }
      · exact ih { r with
          sources := updStats r.sources item.source fun s => { s with unmapped := s.unmapped + 1 }
          total_unmapped := r.total_unmapped + 1
          unmapped_examples := pushExample r.unmapped_examples item.jsonlFile }

theorem persistReport_mode (E : List String) (items : List DiscoveredConversation)
    (r : BackfillReport) (v : String) :
    persistReport E items { r with mode := v } = { persistReport E items r with mode := v } := by
  induction items generalizing r with
  | nil => rfl
  | cons item rest ih =>
    simp only [persistReport]
    split_ifs with hm
    · exact ih { r with
        sources := updStats r.sources item.source fun s => { s with existing := s.existing + 1 }
        total_existing := r.total_existing + 1
        existing_examples := pushExample r.existing_examples item.jsonlFile }
    · exact ih { r with
        sources := updStats r.sources item.source fun s => { s with inserted := s.inserted + 1 }
        total_inserted := r.total_inserted + 1
        inserted_examples := pushExample r.inserted_examples item.jsonlFile }

theorem preReport_dry (agentId : String) (maxF : Nat) (fr : SessionDiscoveryResult)
    (all : List DiscoveredConversation) :
    preReport agentId true maxF fr all =
      { preReport agentId false maxF fr all with mode := "dry-run" } := by
  simp only [preReport]
  rw [show ({ emptyReport agentId true maxF with
      active_sessions_seen := fr.activeSessionsSeen
      working_directories := fr.workingDirectories } : BackfillReport) =
    { ({ emptyReport agentId false maxF with
        active_sessions_seen := fr.activeSessionsSeen
        working_directories := fr.workingDirectories } : BackfillReport) with
      mode := "dry-run" } from rfl]
  rw [bumpDiscovered_mode]
  by_cases h : all.length > maxF <;> simp [h]

theorem effectiveDryRun_some (req : BackfillRequest) (b : Bool) :
    effectiveDryRun { req with dryRun := some b } = b := by
  cases b <;> simp [effectiveDryRun]

theorem effectiveSources_dryRun (req : BackfillRequest) (x : Option Bool) :
    effectiveSources { req with dryRun := x } = effectiveSources req := by
  simp [effectiveSources]

theorem effectiveMaxFiles_dryRun (req : BackfillRequest) (x : Option Bool) :
    effectiveMaxFiles { req with dryRun := x } = effectiveMaxFiles req := by
  simp [effectiveMaxFiles]

theorem existingConvFiles_congr (s1 s2 : Store) (hp : s1.projects = s2.projects)
    (hc : s1.conversations = s2.conversations) :
    existingConvFiles s1 = existingConvFiles s2 := by
  simp [existingConvFiles, hp, hc]

theorem fetchWds_false_frame (dp : DateParse) (env : Env) (sf : StoreFail) (st : Store)
    (agentId : String) :
    (fetchWorkingDirectoriesForAgent dp env sf st agentId false).2.1 = st ∧
    (fetchWorkingDirectoriesForAgent dp env sf st agentId false).2.2 = [] := by
  cases hl : env.live <;>
    simp [fetchWorkingDirectoriesForAgent, hl, sessionLoop_no_writes]

theorem fetchWds_noFail_sdr (dp : DateParse) (env : Env) (st st' : Store) (agentId : String)
    (aw aw' : Bool) :
    (fetchWorkingDirectoriesForAgent dp env noFail st agentId aw).1 =
      (fetchWorkingDirectoriesForAgent dp env noFail st' agentId aw').1 := by
  cases hl : env.live with
  | none => simp [fetchWorkingDirectoriesForAgent, hl]
  | some sessions =>
    simp only [fetchWorkingDirectoriesForAgent, hl]
    obtain ⟨s1, w1⟩ := sessionLoop_noFail_seen_wds dp agentId aw sessions 0
      (registryWds env.registry) st []
    obtain ⟨s2, w2⟩ := sessionLoop_noFail_seen_wds dp agentId aw' sessions 0
      (registryWds env.registry) st' []
    rw [SessionDiscoveryResult.mk.injEq]
    exact ⟨s1.trans s2.symm, w1.trans w2.symm⟩

theorem fetchWds_existing (dp : DateParse) (env : Env) (sf : StoreFail) (st : Store)
    (agentId : String) (aw : Bool) :
    existingConvFiles (fetchWorkingDirectoriesForAgent dp env sf st agentId aw).2.1 =
      existingConvFiles st := by
  cases hl : env.live with
  | none => simp [fetchWorkingDirectoriesForAgent, hl]
  | some sessions =>
    simp only [fetchWorkingDirectoriesForAgent, hl]
    obtain ⟨hp, hc⟩ := sessionLoop_store_frame dp sf agentId aw sessions 0
      (registryWds env.registry) st []
    exact existingConvFiles_congr _ _ hp hc

/-- Claim C2: a dry run performs no store write at all (empty write log,
store returned unchanged), yet its report — including the per-source and
total `inserted` counters, which count every matched conversation whose
transcript path is not already in the store — is exactly the report of the
corresponding apply-mode run, apart from the `mode` field. -/
theorem c2_dry_run_frame (jp : JParse) (dp : DateParse) (env : Env) (st : Store)
    (agentId : String) (req : BackfillRequest)
    (out_d out_a : BackfillReport × Store × List WriteOp)
    (hd : backfillAgentMemory jp dp env noFail st agentId
      { req with dryRun := some true } = .ok out_d)
    (ha : backfillAgentMemory jp dp env noFail st agentId
      { req with dryRun := some false } = .ok out_a) :
    out_d.2.2 = [] ∧ out_d.2.1 = st ∧ out_d.1 = { out_a.1 with mode := "dry-run" } := by
  obtain ⟨-, hp_d⟩ := backfill_ok_destruct jp dp env noFail st agentId
    { req with dryRun := some true } out_d hd
  obtain ⟨-, hp_a⟩ := backfill_ok_destruct jp dp env noFail st agentId
    { req with dryRun := some false } out_a ha
  simp only [effectiveDryRun_some, effectiveSources_dryRun, effectiveMaxFiles_dryRun,
    Bool.not_true, Bool.not_false] at hp_d hp_a
  rw [persistLoop_noFail_eq] at hp_d hp_a
  have hfr_st : (fetchWorkingDirectoriesForAgent dp env noFail st agentId false).2.1 = st :=
    (fetchWds_false_frame dp env noFail st agentId).1
  have hfr_log : (fetchWorkingDirectoriesForAgent dp env noFail st agentId false).2.2 = [] :=
    (fetchWds_false_frame dp env noFail st agentId).2
  have hsdr : (fetchWorkingDirectoriesForAgent dp env noFail st agentId false).1 =
      (fetchWorkingDirectoriesForAgent dp env noFail st agentId true).1 :=
    fetchWds_noFail_sdr dp env st st agentId false true
  rw [fetchWds_existing] at hp_a
  rw [hfr_st, hfr_log, hsdr, persistStoreF_dry, persistLogF_dry, preReport_dry] at hp_d
  simp only [classifyReport_mode, persistReport_mode] at hp_d
  have h1 := Except.ok.inj hp_d
  have h2 := Except.ok.inj hp_a
  refine ⟨?_, ?_, ?_⟩
  · rw [← h1]
  · rw [← h1]
  · rw [← h1, ← h2]

/-- Witness for C2 at a concrete input (`env1`, one would-be insert). -/
theorem c2_dry_run_frame_witness :
    out1d.2.2 = [] ∧ out1d.2.1 = st0 ∧ out1d.1 = { out1a.1 with mode := "dry-run" } :=
  c2_dry_run_frame jp0 dp0 env1 st0 "a" {} out1d out1a (by rfl) (by rfl)

theorem discover_skip_empty (jp : JParse) (dp : DateParse) (xs ys : List FileEntry)
    (f : FileEntry) (c : String) (s : ConversationSource)
    (hc : f.content = some c) (hempty : nonEmptyLines c = []) :
    discoverConversationsFromFiles jp dp (xs ++ f :: ys) s =
      discoverConversationsFromFiles jp dp (xs ++ ys) s := by
  simp [discoverConversationsFromFiles, List.filterMap_append, List.filterMap_cons, hc, hempty]

theorem backfill_congr_env (jp : JParse) (dp : DateParse) (e1 e2 : Env) (sf : StoreFail)
    (st : Store) (agentId : String) (req : BackfillRequest)
    (hreg : e1.registry = e2.registry) (hlive : e1.live = e2.live)
    (hdisc : ∀ srcs, discoverConversations jp dp e1 srcs = discoverConversations jp dp e2 srcs) :
    backfillAgentMemory jp dp e1 sf st agentId req =
      backfillAgentMemory jp dp e2 sf st agentId req := by
  have hf : ∀ aw, fetchWorkingDirectoriesForAgent dp e1 sf st agentId aw =
      fetchWorkingDirectoriesForAgent dp e2 sf st agentId aw := by
    intro aw
    simp only [fetchWorkingDirectoriesForAgent, hreg, hlive]
  simp only [backfillAgentMemory, hdisc, hf]

/-- Claim C10: a transcript file with zero non-empty lines is silently
excluded from discovery — the engine's entire outcome is unchanged by its
presence, so it contributes to no counter (not even `discovered`) and to no
example list — and every `DiscoveredConversation` the engine processes has
`messageCount ≥ 1`, equal to the number of non-empty lines of its file. -/
theorem c10_empty_files_excluded (jp : JParse) (dp : DateParse) :
    (∀ (env : Env) (sf : StoreFail) (st : Store) (agentId : String) (req : BackfillRequest)
      (xs ys : List FileEntry) (f : FileEntry) (c : String),
      f.content = some c → nonEmptyLines c = [] →
      backfillAgentMemory jp dp { env with claudeFiles := xs ++ f :: ys } sf st agentId req =
        backfillAgentMemory jp dp { env with claudeFiles := xs ++ ys } sf st agentId req) ∧
    (∀ (env : Env) (sf : StoreFail) (st : Store) (agentId : String) (req : BackfillRequest)
      (xs ys : List FileEntry) (f : FileEntry) (c : String),
      f.content = some c → nonEmptyLines c = [] →
      backfillAgentMemory jp dp { env with codexFiles := xs ++ f :: ys } sf st agentId req =
        backfillAgentMemory jp dp { env with codexFiles := xs ++ ys } sf st agentId req) ∧
    (∀ (files : List FileEntry) (s : ConversationSource) (d : DiscoveredConversation),
      d ∈ discoverConversationsFromFiles jp dp files s →
      ∃ f ∈ files, ∃ c, f.content = some c ∧
        d.messageCount = (nonEmptyLines c).length ∧ 1 ≤ d.messageCount) := by
  refine ⟨?_, ?_, ?_⟩
  · intro env sf st agentId req xs ys f c hc hempty
    refine backfill_congr_env jp dp _ _ sf st agentId req rfl rfl ?_
    intro srcs
    simp only [discoverConversations, discover_skip_empty jp dp xs ys f c _ hc hempty]
  · intro env sf st agentId req xs ys f c hc hempty
    refine backfill_congr_env jp dp _ _ sf st agentId req rfl rfl ?_
    intro srcs
    simp only [discoverConversations, discover_skip_empty jp dp xs ys f c _ hc hempty]
  · intro files s d hd
    simp only [discoverConversationsFromFiles, List.mem_filterMap] at hd
    obtain ⟨f, hf, hsome⟩ := hd
    cases hc : f.content with
    | none => rw [hc] at hsome; simp at hsome
    | some raw =>
      rw [hc] at hsome
      by_cases hne : (nonEmptyLines raw).isEmpty = true
      · simp [hne] at hsome
      · simp [hne] at hsome
        have hlen : (nonEmptyLines raw).length ≠ 0 := by
          simpa [List.isEmpty_iff, List.length_eq_zero] using hne
        cases s <;>
          · simp only [] at hsome
            subst hsome
            refine ⟨f, hf, raw, hc, ?_, ?_⟩
            · simp [extractConversationFromClaudeLines, extractConversationFromCodexLines]
            · simp [extractConversationFromClaudeLines, extractConversationFromCodexLines]
              omega

/-- Witness for C10 at a concrete input: a whitespace-only transcript file
does not change the engine's outcome. -/
theorem c10_empty_files_excluded_witness :
    backfillAgentMemory jp0 dp0
        { env1 with claudeFiles := [] ++ ⟨"/e.jsonl", some " \n "⟩ :: env1.claudeFiles }
        noFail st0 "a" {} =
      backfillAgentMemory jp0 dp0 { env1 with claudeFiles := [] ++ env1.claudeFiles }
        noFail st0 "a" {} :=
  (c10_empty_files_excluded jp0 dp0).1 env1 noFail st0 "a" {} [] env1.claudeFiles
    ⟨"/e.jsonl", some " \n "⟩ " \n " rfl (by decide)

/-! ## Extractor timestamp lemmas -/

theorem claudeMetaUpd_ts (st : ExtractState) (v : JValue) :
    (claudeMetaUpd st v).firstMessageAt = st.firstMessageAt ∧
    (claudeMetaUpd st v).lastMessageAt = st.lastMessageAt := by
  simp only [claudeMetaUpd]
  repeat' split
  all_goals exact ⟨rfl, rfl⟩

theorem claudeUserUpd_ts (st : ExtractState) (v : JValue) :
    (claudeUserUpd st v).firstMessageAt = st.firstMessageAt ∧
    (claudeUserUpd st v).lastMessageAt = st.lastMessageAt := by
  simp only [claudeUserUpd]
  repeat' split
  all_goals exact ⟨rfl, rfl⟩

theorem claudeModelUpd_ts (st : ExtractState) (v : JValue) :
    (claudeModelUpd st v).firstMessageAt = st.firstMessageAt ∧
    (claudeModelUpd st v).lastMessageAt = st.lastMessageAt := by
  simp only [claudeModelUpd]
  repeat' split
  all_goals exact ⟨rfl, rfl⟩

theorem claudeLineStep_first (dp : DateParse) (st : ExtractState) (v : JValue) :
    (claudeLineStep dp st v).firstMessageAt =
      (claudeTsUpd dp st v).firstMessageAt := by
  simp only [claudeLineStep]
  rw [(claudeModelUpd_ts _ _).1, (claudeUserUpd_ts _ _).1]
  simp only [claudeTsUpd]
  split
  · next ts heq =>
    cases hfm : st.firstMessageAt with
    | none => simp [updMin, (claudeMetaUpd_ts st v).1, hfm]
    | some f =>
      by_cases hlt : ts < f <;> simp [updMin, (claudeMetaUpd_ts st v).1, hfm, hlt]
  · exact (claudeMetaUpd_ts st v).1

theorem claudeStep_first_mono (dp : DateParse) (st : ExtractState) (v : JValue) (f : Int)
    (hf : st.firstMessageAt = some f) :
    ∃ m, (claudeLineStep dp st v).firstMessageAt = some m ∧ m ≤ f := by
  rw [claudeLineStep_first]
  simp only [claudeTsUpd]
  split
  · next ts heq =>
    by_cases hlt : ts < f
    · exact ⟨ts, by simp [updMin, hf, hlt], le_of_lt hlt⟩
    · exact ⟨f, by simp [updMin, hf, hlt], le_refl f⟩
  · exact ⟨f, hf, le_refl f⟩

theorem claudeStep_first_le (dp : DateParse) (st : ExtractState) (v : JValue) (t : Int)
    (ht : parseTimestamp dp (jget v "timestamp") = some t) :
    ∃ m, (claudeLineStep dp st v).firstMessageAt = some m ∧ m ≤ t := by
  rw [claudeLineStep_first]
  simp only [claudeTsUpd, ht]
  cases hf : st.firstMessageAt with
  | none => exact ⟨t, by simp [updMin, hf], le_refl t⟩
  | some f =>
    by_cases hlt : t < f
    · exact ⟨t, by simp [updMin, hf, hlt], le_refl t⟩
    · exact ⟨f, by simp [updMin, hf, hlt], by omega⟩

/-- The metadata fold of the Claude extractor. -/
def claudeFold (jp : JParse) (dp : DateParse) (st0 : ExtractState) (lines : List String) :
    ExtractState :=
  lines.foldl
    (fun st line =>
      match jp line with
      | some v => claudeLineStep dp st v
      | none => st)
    st0

theorem claudeFold_first_mono (jp : JParse) (dp : DateParse) (lines : List String)
    (st0 : ExtractState) (f : Int) (hf : st0.firstMessageAt = some f) :
    ∃ a, (claudeFold jp dp st0 lines).firstMessageAt = some a ∧ a ≤ f := by
  induction lines generalizing st0 f with
  | nil => exact ⟨f, hf, le_refl f⟩
  | cons line rest ih =>
    cases hjp : jp line with
    | none =>
      obtain ⟨a, ha, hle⟩ := ih st0 f hf
      refine ⟨a, ?_, hle⟩
      simpa [claudeFold, hjp] using ha
    | some v =>
      obtain ⟨m, hm, hmle⟩ := claudeStep_first_mono dp st0 v f hf
      obtain ⟨a, ha, hle⟩ := ih _ m hm
      refine ⟨a, ?_, le_trans hle hmle⟩
      simpa [claudeFold, hjp] using ha

theorem claudeFold_first_le (jp : JParse) (dp : DateParse) (lines : List String)
    (st0 : ExtractState) (a : Int)
    (ha : (claudeFold jp dp st0 lines).firstMessageAt = some a) :
    ∀ line ∈ lines, ∀ t, lineTs jp dp line = some t → a ≤ t := by
  induction lines generalizing st0 with
  | nil => intro line hline; simp at hline
  | cons l rest ih =>
    intro line hline t ht
    rcases List.mem_cons.mp hline with hl | hl
    · subst hl
      simp only [lineTs] at ht
      cases hjp : jp line with
      | none => rw [hjp] at ht; exact absurd ht (by simp)
      | some v =>
        rw [hjp] at ht
        obtain ⟨m, hm, hmle⟩ := claudeStep_first_le dp st0 v t ht
        obtain ⟨a', ha', hle⟩ := claudeFold_first_mono jp dp rest _ m hm
        have : a = a' := by
          rw [show claudeFold jp dp st0 (line :: rest) =
            claudeFold jp dp (claudeLineStep dp st0 v) rest from by
              simp [claudeFold, hjp]] at ha
          rw [ha] at ha'
          exact Option.some.inj ha'
        omega
    · cases hjp : jp l with
      | none =>
        refine ih st0 ?_ line hl t ht
        simpa [claudeFold, hjp] using ha
      | some v =>
        refine ih (claudeLineStep dp st0 v) ?_ line hl t ht
        simpa [claudeFold, hjp] using ha

theorem findLastTs_mem (jp : JParse) (dp : DateParse) (lines : List String) (b : Int)
    (h : findLastTs jp dp lines = some b) :
    ∃ line ∈ lines, lineTs jp dp line = some b := by
  simp only [findLastTs] at h
  obtain ⟨line, hline, hsome⟩ := List.exists_of_findSome?_eq_some h
  refine ⟨line, ?_, ?_⟩
  · have := List.mem_reverse.mp hline
    exact List.drop_subset _ _ this
  · simpa [lineTs] using hsome

theorem codexSessionMeta_ts (st : ExtractState) (p : Option JValue) :
    (codexSessionMeta st p).firstMessageAt = st.firstMessageAt ∧
    (codexSessionMeta st p).lastMessageAt = st.lastMessageAt := by
  simp only [codexSessionMeta]
  repeat' split
  all_goals exact ⟨rfl, rfl⟩

theorem codexTurnContext_ts (st : ExtractState) (p : Option JValue) :
    (codexTurnContext st p).firstMessageAt = st.firstMessageAt ∧
    (codexTurnContext st p).lastMessageAt = st.lastMessageAt := by
  simp only [codexTurnContext]
  repeat' split
  all_goals exact ⟨rfl, rfl⟩

theorem codexResponseItem_ts (st : ExtractState) (p : Option JValue) :
    (codexResponseItem st p).firstMessageAt = st.firstMessageAt ∧
    (codexResponseItem st p).lastMessageAt = st.lastMessageAt := by
  simp only [codexResponseItem]
  repeat' split
  all_goals exact ⟨rfl, rfl⟩

theorem codexEventMsg_ts (st : ExtractState) (p : Option JValue) :
    (codexEventMsg st p).firstMessageAt = st.firstMessageAt ∧
    (codexEventMsg st p).lastMessageAt = st.lastMessageAt := by
  simp only [codexEventMsg]
  repeat' split
  all_goals exact ⟨rfl, rfl⟩

theorem updMin_last (st : ExtractState) (ts : Int) :
    (updMin st ts).lastMessageAt = st.lastMessageAt := by
  simp only [updMin]
  repeat' split
  all_goals rfl

theorem updMax_first (st : ExtractState) (ts : Int) :
    (updMax st ts).firstMessageAt = st.firstMessageAt := by
  simp only [updMax]
  repeat' split
  all_goals rfl

theorem tsOrdered_frame (st st' : ExtractState)
    (hf : st'.firstMessageAt = st.firstMessageAt)
    (hl : st'.lastMessageAt = st.lastMessageAt) (h : tsOrdered st) : tsOrdered st' := by
  unfold tsOrdered at h ⊢
  rw [hf, hl]
  exact h

theorem updMinMax_inv (st : ExtractState) (ts : Int) (h : tsOrdered st) :
    ∃ a b, (updMax (updMin st ts) ts).firstMessageAt = some a ∧
      (updMax (updMin st ts) ts).lastMessageAt = some b ∧ a ≤ b := by
  rcases h with ⟨h1, h2⟩ | ⟨a, b, h1, h2, hab⟩
  · refine ⟨ts, ts, ?_, ?_, le_refl ts⟩
    · rw [updMax_first]
      simp [updMin, h1]
    · simp [updMax, updMin_last, h2]
  · by_cases hlt : ts < a <;> by_cases hgt : ts > b
    · refine ⟨ts, ts, ?_, ?_, le_refl ts⟩
      · rw [updMax_first]; simp [updMin, h1, hlt]
      · simp [updMax, updMin_last, h2, hgt]
    · refine ⟨ts, b, ?_, ?_, by omega⟩
      · rw [updMax_first]; simp [updMin, h1, hlt]
      · simp [updMax, updMin_last, h2, hgt]
    · refine ⟨a, ts, ?_, ?_, by omega⟩
      · rw [updMax_first]; simp [updMin, h1, hlt]
      · simp [updMax, updMin_last, h2, hgt]
    · refine ⟨a, b, ?_, ?_, hab⟩
      · rw [updMax_first]; simp [updMin, h1, hlt]
      · simp [updMax, updMin_last, h2, hgt]

theorem codexLineStep_inv (dp : DateParse) (st : ExtractState) (v : JValue)
    (h : tsOrdered st) : tsOrdered (codexLineStep dp st v) := by
  simp only [codexLineStep]
  have h' : tsOrdered
      (match parseTimestamp dp (jget v "timestamp") with
        | some ts => updMax (updMin st ts) ts
        | none => st) := by
    split
    · next ts heq => exact Or.inr (updMinMax_inv st ts h)
    · exact h
  split
  · next t heq =>
    split_ifs
    · exact tsOrdered_frame _ _ (codexSessionMeta_ts _ _).1 (codexSessionMeta_ts _ _).2 h'
    · exact tsOrdered_frame _ _ (codexTurnContext_ts _ _).1 (codexTurnContext_ts _ _).2 h'
    · exact tsOrdered_frame _ _ (codexResponseItem_ts _ _).1 (codexResponseItem_ts _ _).2 h'
    · exact tsOrdered_frame _ _ (codexEventMsg_ts _ _).1 (codexEventMsg_ts _ _).2 h'
    · exact h'
  · exact h'

theorem codexFold_inv (jp : JParse) (dp : DateParse) (lines : List String)
    (st0 : ExtractState) (h : tsOrdered st0) :
    tsOrdered (lines.foldl
      (fun st line =>
        match jp line with
        | some v => codexLineStep dp st v
        | none => st)
      st0) := by
  induction lines generalizing st0 with
  | nil => exact h
  | cons line rest ih =>
    cases hjp : jp line with
    | none =>
      simp only [List.foldl_cons, hjp]
      exact ih st0 h
    | some v =>
      simp only [List.foldl_cons, hjp]
      exact ih _ (codexLineStep_inv dp st0 v h)

/-- Claim C7 (counterexample): with more than 80 lines and a non-monotone
timestamp order, the Claude extractor can return
`firstMessageAt > lastMessageAt`: on `lines81` the prefix scan only sees
the large first-line timestamp while the backward scan finds the smaller
last-line timestamp. -/
theorem c7_counterexample :
    (extractConversationFromClaudeLines jp0 dp0 lines81 "/f.jsonl").firstMessageAt =
        some 100 ∧
    (extractConversationFromClaudeLines jp0 dp0 lines81 "/f.jsonl").lastMessageAt =
        some 50 ∧
    ¬ (100 : Int) ≤ 50 :=
  ⟨rfl, rfl, by decide⟩

/-- Claim C7 (amended): for every parser behavior, line list and path, the
Codex extractor always satisfies `firstMessageAt ≤ lastMessageAt` when both
are present; the Claude extractor satisfies it whenever the transcript has
at most 80 (non-empty) lines, so that its bounded metadata prefix covers
the whole file.  Beyond 80 lines the invariant can fail (see the
counterexample). -/
theorem c7_first_le_last (jp : JParse) (dp : DateParse) (lines : List String)
    (path : String) :
    (∀ a b,
      (extractConversationFromCodexLines jp dp lines path).firstMessageAt = some a →
      (extractConversationFromCodexLines jp dp lines path).lastMessageAt = some b →
      a ≤ b) ∧
    (lines.length ≤ 80 →
      ∀ a b,
        (extractConversationFromClaudeLines jp dp lines path).firstMessageAt = some a →
        (extractConversationFromClaudeLines jp dp lines path).lastMessageAt = some b →
        a ≤ b) := by
  constructor
  · intro a b ha hb
    have hinv := codexFold_inv jp dp lines {} (Or.inl ⟨rfl, rfl⟩)
    simp only [extractConversationFromCodexLines] at ha hb
    rcases hinv with ⟨h1, h2⟩ | ⟨a', b', h1, h2, hab⟩
    · rw [ha] at h1
      exact absurd h1 (by simp)
    · rw [ha] at h1
      rw [hb] at h2
      rw [Option.some.inj h1, Option.some.inj h2]
      exact hab
  · intro hlen a b ha hb
    have hfirst : (claudeFold jp dp {} (lines.take 80)).firstMessageAt = some a := ha
    rw [List.take_of_length_le hlen] at hfirst
    have hlast : findLastTs jp dp lines = some b := hb
    obtain ⟨line, hline, hts⟩ := findLastTs_mem jp dp lines b hlast
    exact claudeFold_first_le jp dp lines {} a hfirst line hline b hts

/-- Witness for the amended C7 at concrete inputs: a two-line Codex
transcript with decreasing timestamps and a one-line Claude transcript. -/
theorem c7_first_le_last_witness : (50 : Int) ≤ 100 ∧ (100 : Int) ≤ 100 :=
  ⟨(c7_first_le_last jp0 dp0
      ["\x7b\"timestamp\":\"1970-01-01T00:00:00.100Z\"\x7d",
       "\x7b\"timestamp\":\"1970-01-01T00:00:00.050Z\"\x7d"] "/c.jsonl").1 50 100 rfl rfl,
   (c7_first_le_last jp0 dp0
      ["\x7b\"timestamp\":\"1970-01-01T00:00:00.100Z\"\x7d"] "/c.jsonl").2 (by decide)
      100 100 rfl rfl⟩

/-! ## Path-normalizer lemmas -/

theorem splitOnChar_ne_nil (sep : Char) (cs : List Char) : splitOnChar sep cs ≠ [] := by
  induction cs with
  | nil => simp [splitOnChar]
  | cons c rest ih =>
    simp only [splitOnChar]
    split
    · simp
    · cases h : splitOnChar sep rest with
      | nil => exact absurd h ih
      | cons a b => simp

theorem splitOnChar_concat_sep (sep : Char) (cs : List Char) :
    splitOnChar sep (cs ++ [sep]) = splitOnChar sep cs ++ [[]] := by
  induction cs with
  | nil => simp [splitOnChar]
  | cons c rest ih =>
    simp only [List.cons_append, splitOnChar]
    by_cases hc : c = sep
    · simp [hc, ih]
    · rw [if_neg hc, if_neg hc]
      cases h : splitOnChar sep rest with
      | nil => exact absurd h (splitOnChar_ne_nil sep rest)
      | cons a b =>
        simp only [List.append_eq]
        rw [ih, h]
        simp

theorem splitOnChar_not_mem (sep : Char) (cs : List Char) :
    ∀ s ∈ splitOnChar sep cs, sep ∉ s := by
  induction cs with
  | nil =>
    intro s hs
    simp [splitOnChar] at hs
    simp [hs]
  | cons c rest ih =>
    intro s hs
    simp only [splitOnChar] at hs
    by_cases hc : c = sep
    · rw [if_pos hc] at hs
      rcases List.mem_cons.mp hs with h1 | h1
      · simp [h1]
      · exact ih s h1
    · rw [if_neg hc] at hs
      cases h : splitOnChar sep rest with
      | nil => exact absurd h (splitOnChar_ne_nil sep rest)
      | cons a b =>
        rw [h] at hs
        rcases List.mem_cons.mp hs with h1 | h1
        · subst h1
          intro hmem
          rcases List.mem_cons.mp hmem with h2 | h2
          · exact hc h2.symm
          · exact ih a (by simp [h]) h2
        · exact ih s (by simp [h, h1])

theorem normSegsStep_mem (a : Bool) (P : List Char → Prop) (hP : P ['.', '.'])
    (acc : List (List Char)) (seg : List Char)
    (hacc : ∀ s ∈ acc, P s)
    (hseg : seg ≠ [] → ¬(seg = [] ∨ seg = ['.']) → seg ≠ ['.', '.'] → P seg) :
    ∀ s ∈ normSegsStep a acc seg, P s := by
  intro s hs
  simp only [normSegsStep] at hs
  split at hs
  · exact hacc s hs
  · next hguard =>
    split at hs
    · next hdd =>
      split at hs
      · next hnil =>
        split at hs
        · rcases List.mem_singleton.mp hs with rfl
          exact hdd ▸ hP
        · simp at hs
      · next top restacc =>
        split at hs
        · split at hs
          · rcases List.mem_cons.mp hs with rfl | hmem
            · exact hdd ▸ hP
            · exact hacc s hmem
          · exact hacc s hs
        · exact hacc s (List.mem_cons_of_mem top hs)
    · next hdd =>
      rcases List.mem_cons.mp hs with rfl | hmem
      · have hne : s ≠ [] := fun he => hguard (Or.inl he)
        exact hseg hne hguard hdd
      · exact hacc s hmem

theorem normSegs_mem (a : Bool) (segs : List (List Char))
    (hsegs : ∀ s ∈ segs, '/' ∉ s) :
    ∀ s ∈ normSegs a segs, s ≠ [] ∧ '/' ∉ s := by
  suffices h : ∀ acc, (∀ s ∈ acc, s ≠ [] ∧ '/' ∉ s) →
      ∀ s ∈ segs.foldl (normSegsStep a) acc, s ≠ [] ∧ '/' ∉ s by
    intro s hs
    simp only [normSegs, List.mem_reverse] at hs
    exact h [] (by simp) s hs
  induction segs with
  | nil => intro acc hacc; simpa using hacc
  | cons seg rest ih =>
    intro acc hacc s hs
    simp only [List.foldl_cons] at hs
    refine ih (fun x hx => hsegs x (List.mem_cons_of_mem seg hx))
      (normSegsStep a acc seg) ?_ s hs
    refine normSegsStep_mem a _ (by decide) acc seg hacc ?_
    intro hne _ _
    exact ⟨hne, hsegs seg (List.mem_cons_self seg rest)⟩

theorem joinSegs_ne_nil (segs : List (List Char)) (h0 : segs ≠ [])
    (h : ∀ s ∈ segs, s ≠ []) : joinSegs segs ≠ [] := by
  cases segs with
  | nil => exact absurd rfl h0
  | cons s rest =>
    cases rest with
    | nil => exact h s (by simp)
    | cons t r => simp [joinSegs]

theorem joinSegs_getLast_ne (segs : List (List Char)) :
    (∀ s ∈ segs, s ≠ [] ∧ '/' ∉ s) →
      ∀ c, (joinSegs segs).getLast? = some c → c ≠ '/' := by
  induction segs with
  | nil =>
    intro _ c hc
    simp [joinSegs] at hc
  | cons s rest ih =>
    intro h c hc
    cases rest with
    | nil =>
      simp only [joinSegs] at hc
      have hmem : c ∈ s := List.mem_of_getLast?_eq_some hc
      intro hcontra
      subst hcontra
      exact (h s (by simp)).2 hmem
    | cons t r =>
      simp only [joinSegs] at hc
      rw [List.getLast?_append] at hc
      have hne : joinSegs (t :: r) ≠ [] :=
        joinSegs_ne_nil _ (by simp) (fun x hx => (h x (List.mem_cons_of_mem s hx)).1)
      cases hl : joinSegs (t :: r) with
      | nil => exact absurd hl hne
      | cons x xs =>
        rw [hl, List.getLast?_cons_cons] at hc
        have hsome : (x :: xs).getLast?.isSome := by
          simp [List.getLast?_isSome]
        obtain ⟨d, hd⟩ := Option.isSome_iff_exists.mp hsome
        rw [hd] at hc
        simp only [Option.or_some] at hc
        have hdc : d = c := Option.some.inj hc
        subst hdc
        exact ih (fun x hx => h x (List.mem_cons_of_mem s hx)) d
          (by rw [hl, hd])

theorem normSegs_append_empty (a : Bool) (segs : List (List Char)) :
    normSegs a (segs ++ [[]]) = normSegs a segs := by
  simp [normSegs, List.foldl_append, normSegsStep]

theorem stripTrailing_concat_slash (X : List Char) (hX : X ≠ []) :
    stripTrailing '/' (X ++ ['/']) = X := by
  have hlen : (X ++ ['/']).length > 1 := by
    have := List.length_pos.mpr hX
    simp only [List.length_append, List.length_cons, List.length_nil]
    omega
  simp [stripTrailing, hlen, List.getLast?_concat, hX]

theorem stripTrailing_of_last_ne (X : List Char) (d : Char)
    (hd : X.getLast? = some d) (hne : d ≠ '/') :
    stripTrailing '/' X = X := by
  have : ¬(X.length > 1 ∧ X.getLast? = some '/') := by
    rintro ⟨-, h2⟩
    rw [hd] at h2
    exact hne (Option.some.inj h2)
  simp [stripTrailing, this]

theorem stripTrailing_posixNormalize_concat (cs : List Char) (hne : cs ≠ []) :
    stripTrailing '/' (posixNormalizeChars (cs ++ ['/'])) =
      stripTrailing '/' (posixNormalizeChars cs) := by
  have habs : (cs ++ ['/']).head? = cs.head? := by
    cases cs with
    | nil => exact absurd rfl hne
    | cons c r => rfl
  have htrail : (cs ++ ['/']).getLast? = some '/' := List.getLast?_concat cs
  have hsplit : splitOnChar '/' (cs ++ ['/']) = splitOnChar '/' cs ++ [[]] :=
    splitOnChar_concat_sep '/' cs
  have hgood : ∀ s ∈ normSegs (!decide (cs.head? = some '/')) (splitOnChar '/' cs),
      s ≠ [] ∧ '/' ∉ s :=
    normSegs_mem _ _ (splitOnChar_not_mem '/' cs)
  simp only [posixNormalizeChars, habs, htrail, hsplit, normSegs_append_empty]
  set B := joinSegs (normSegs (!decide (cs.head? = some '/')) (splitOnChar '/' cs))
    with hB
  by_cases hbody : B = []
  · by_cases habs0 : cs.head? = some '/' <;> by_cases htr : cs.getLast? = some '/' <;>
      simp [hbody, habs0, htr, stripTrailing]
  · obtain ⟨d, hd⟩ := Option.isSome_iff_exists.mp
      (by simp [List.getLast?_isSome, hbody] : B.getLast?.isSome)
    have hdne : d ≠ '/' := joinSegs_getLast_ne _ hgood d (by rw [← hB]; exact hd)
    by_cases habs0 : cs.head? = some '/' <;> by_cases htr : cs.getLast? = some '/'
    · simp [hbody, habs0, htr]
    · have hB'ne : ('/' :: B) ≠ [] := by simp
      have hlast : ('/' :: B).getLast? = some d := by
        cases hb : B with
        | nil => exact absurd hb hbody
        | cons x xs => rw [List.getLast?_cons_cons, ← hb]; exact hd
      simp only [hbody, habs0, htr, if_pos, if_neg, ite_true, ite_false, if_true,
        if_false]
      rw [List.append_nil, stripTrailing_concat_slash _ hB'ne,
        stripTrailing_of_last_ne _ d hlast hdne]
    · simp [hbody, habs0, htr]
    · rw [if_neg hbody, if_neg hbody, if_neg habs0, if_pos trivial, if_neg htr,
        List.append_nil, stripTrailing_concat_slash _ hbody,
        stripTrailing_of_last_ne _ d hd hdne]

theorem jsTrimChars_dropWhile_eq (cs : List Char) (h : jsTrimChars cs = cs) :
    cs.dropWhile isJsWs = cs := by
  have hlen : (((cs.dropWhile isJsWs).reverse.dropWhile isJsWs)).length = cs.length := by
    have := congrArg List.length h
    simpa [jsTrimChars] using this
  have hs2 : (((cs.dropWhile isJsWs).reverse.dropWhile isJsWs)).length ≤
      (cs.dropWhile isJsWs).length := by
    have := (List.dropWhile_suffix (l := (cs.dropWhile isJsWs).reverse) isJsWs).length_le
    simpa using this
  have hs1 : (cs.dropWhile isJsWs).length ≤ cs.length :=
    (List.dropWhile_suffix isJsWs).length_le
  exact (List.dropWhile_suffix isJsWs).eq_of_length (by omega)

theorem jsTrimChars_concat_slash (cs : List Char) (h : jsTrimChars cs = cs)
    (hne : cs ≠ []) : jsTrimChars (cs ++ ['/']) = cs ++ ['/'] := by
  have hdrop := jsTrimChars_dropWhile_eq cs h
  obtain ⟨c, rest, rfl⟩ := List.exists_cons_of_ne_nil hne
  have hcw : ¬(isJsWs c = true) := by
    intro hw
    rw [List.dropWhile_cons, if_pos hw] at hdrop
    have hlen := congrArg List.length hdrop
    have hle := (List.dropWhile_suffix (l := rest) isJsWs).length_le
    simp only [List.length_cons] at hlen
    omega
  have hrev : (c :: (rest ++ ['/'])).reverse = '/' :: (c :: rest).reverse := by
    simp
  unfold jsTrimChars
  rw [List.cons_append, List.dropWhile_cons, if_neg hcw, hrev,
    List.dropWhile_cons, if_neg (by decide : ¬(isJsWs '/' = true))]
  simp

/-- C8: the counterexamples.  Appending a backslash separator changes the
result for `"a/"` (which already ends in a slash), and appending a slash to
the empty string changes the result (`"/"` vs `"."`): the claimed equality
fails for both separator conventions on some input. -/
theorem c8_counterexample :
    normalizePathForMatch ("a/" ++ "\\") ≠ normalizePathForMatch "a/" ∧
      normalizePathForMatch ("" ++ "/") ≠ normalizePathForMatch "" := by
  decide

/-- C8 (amended): `normalizePathForMatch` is a total function on strings by
construction, and appending one trailing `/` separator never changes its
result on a trimmed non-empty path. -/
theorem c8_trailing_separator (p : String) (htrim : strTrim p = p) (hne : p ≠ "") :
    normalizePathForMatch (p ++ "/") = normalizePathForMatch p := by
  have hdata : (p ++ "/").data = p.data ++ ['/'] := rfl
  have htrimc : jsTrimChars p.data = p.data := congrArg String.data htrim
  have hnec : p.data ≠ [] := by
    intro hd
    apply hne
    cases p
    subst hd
    rfl
  simp only [normalizePathForMatch]
  rw [hdata, jsTrimChars_concat_slash p.data htrimc hnec, htrimc,
    stripTrailing_posixNormalize_concat p.data hnec]

/-- C8 witness: the amended equality instantiated at a concrete trimmed,
non-empty path. -/
theorem c8_trailing_separator_witness :
    strTrim "/home/user/projects/app" = "/home/user/projects/app" ∧
      "/home/user/projects/app" ≠ "" ∧
      normalizePathForMatch ("/home/user/projects/app" ++ "/") =
        normalizePathForMatch "/home/user/projects/app" :=
  ⟨by decide, by decide, c8_trailing_separator _ (by decide) (by decide)⟩

/-! ## Upsert and store-growth lemmas -/

theorem mem_upsertBy_self {α : Type} (key : α → String) (r : α) (xs : List α) :
    r ∈ upsertBy key r xs := by
  by_cases h : xs.any (fun x => key x = key r) = true
  · simp only [upsertBy, if_pos h]
    obtain ⟨x, hx, hk⟩ := List.any_eq_true.mp h
    have hk' : key x = key r := by simpa using hk
    refine List.mem_map.mpr ⟨x, hx, ?_⟩
    rw [if_pos hk']
  · simp only [upsertBy, if_neg h]
    exact List.mem_append_right _ (List.mem_singleton_self r)

theorem mem_upsertBy_of_ne {α : Type} (key : α → String) (r x : α) (xs : List α)
    (hx : x ∈ xs) (hk : key x ≠ key r) : x ∈ upsertBy key r xs := by
  by_cases h : xs.any (fun y => key y = key r) = true
  · simp only [upsertBy, if_pos h]
    exact List.mem_map.mpr ⟨x, hx, by rw [if_neg hk]⟩
  · simp only [upsertBy, if_neg h]
    exact List.mem_append_left _ hx

theorem upsertBy_key_cover {α : Type} (key : α → String) (r p : α) (xs : List α)
    (hp : p ∈ xs) : ∃ q ∈ upsertBy key r xs, key q = key p := by
  by_cases hk : key p = key r
  · exact ⟨r, mem_upsertBy_self key r xs, hk.symm⟩
  · exact ⟨p, mem_upsertBy_of_ne key r p xs hp hk, rfl⟩

theorem existingConvFiles_intro (st : Store) (c : ConversationRecord) (p : ProjectRecord)
    (hc : c ∈ st.conversations) (hp : p ∈ st.projects)
    (hpp : p.project_path = c.project_path) (hne : c.jsonl_file ≠ "") :
    c.jsonl_file ∈ existingConvFiles st := by
  simp only [existingConvFiles, List.mem_flatMap]
  refine ⟨p, hp, ?_⟩
  simp only [List.mem_filterMap, List.mem_filter]
  refine ⟨c, ⟨hc, ?_⟩, ?_⟩
  · simp [hpp]
  · rw [if_neg hne]

theorem existingConvFiles_elim (st : Store) (f : String) (hf : f ∈ existingConvFiles st) :
    f ≠ "" ∧ ∃ c ∈ st.conversations, c.jsonl_file = f ∧
      ∃ p ∈ st.projects, p.project_path = c.project_path := by
  simp only [existingConvFiles, List.mem_flatMap, List.mem_filterMap, List.mem_filter] at hf
  obtain ⟨p, hp, c, ⟨hc, hcp⟩, hif⟩ := hf
  by_cases hz : c.jsonl_file = ""
  · rw [if_pos hz] at hif
    cases hif
  · rw [if_neg hz] at hif
    obtain rfl := Option.some.inj hif
    exact ⟨hz, c, hc, rfl, p, hp,
      ((by simpa using hcp : c.project_path = p.project_path)).symm⟩

theorem existingConvFiles_step_mono (st : Store) (item : DiscoveredConversation)
    (cwd : String) (f : String) (hf : f ∈ existingConvFiles st) :
    f ∈ existingConvFiles
      (recordConversationStore (recordProjectStore st (projRecord item cwd))
        (convRecord item cwd)) := by
  obtain ⟨hfne, c, hc, hcf, p, hp, hpp⟩ := existingConvFiles_elim st f hf
  by_cases hkey : c.jsonl_file = (convRecord item cwd).jsonl_file
  · have hcmem : convRecord item cwd ∈
        (recordConversationStore (recordProjectStore st (projRecord item cwd))
          (convRecord item cwd)).conversations :=
      mem_upsertBy_self _ _ _
    have hpmem : projRecord item cwd ∈
        (recordConversationStore (recordProjectStore st (projRecord item cwd))
          (convRecord item cwd)).projects :=
      mem_upsertBy_self _ _ _
    have hmem := existingConvFiles_intro _ (convRecord item cwd) (projRecord item cwd)
      hcmem hpmem rfl (by rw [← hkey, hcf]; exact hfne)
    rw [← hcf, hkey]
    exact hmem
  · have hcmem : c ∈ (recordConversationStore (recordProjectStore st (projRecord item cwd))
        (convRecord item cwd)).conversations :=
      mem_upsertBy_of_ne _ _ _ _ hc hkey
    obtain ⟨q, hq, hqk⟩ := upsertBy_key_cover (fun x => x.project_path)
      (projRecord item cwd) p st.projects hp
    have hmem := existingConvFiles_intro _ c q hcmem hq (hqk.trans hpp)
      (by rw [hcf]; exact hfne)
    rw [← hcf]
    exact hmem

theorem persistStoreF_cons_existing (E : List String) (item : DiscoveredConversation)
    (rest : List DiscoveredConversation) (st : Store) (h : item.jsonlFile ∈ E) :
    persistStoreF false E (item :: rest) st = persistStoreF false E rest st := by
  simp [persistStoreF, h]

theorem persistStoreF_cons_none (E : List String) (item : DiscoveredConversation)
    (rest : List DiscoveredConversation) (st : Store) (h : item.jsonlFile ∉ E)
    (hcwd : item.cwd = none) :
    persistStoreF false E (item :: rest) st = persistStoreF false E rest st := by
  simp [persistStoreF, h, hcwd]

theorem persistStoreF_cons_empty (E : List String) (item : DiscoveredConversation)
    (rest : List DiscoveredConversation) (st : Store) (h : item.jsonlFile ∉ E)
    (hcwd : item.cwd = some "") :
    persistStoreF false E (item :: rest) st = persistStoreF false E rest st := by
  simp [persistStoreF, h, hcwd]

theorem persistStoreF_cons_insert (E : List String) (item : DiscoveredConversation)
    (rest : List DiscoveredConversation) (st : Store) (cwd : String)
    (h : item.jsonlFile ∉ E) (hcwd : item.cwd = some cwd) (hz : cwd ≠ "") :
    persistStoreF false E (item :: rest) st =
      persistStoreF false E rest
        (recordConversationStore (recordProjectStore st (projRecord item cwd))
          (convRecord item cwd)) := by
  simp [persistStoreF, h, hcwd, hz]

theorem persistStoreF_existing_mono (E : List String) (items : List DiscoveredConversation)
    (f : String) :
    ∀ st, f ∈ existingConvFiles st →
      f ∈ existingConvFiles (persistStoreF false E items st) := by
  induction items with
  | nil =>
    intro st hf
    simpa [persistStoreF] using hf
  | cons item rest ih =>
    intro st hf
    by_cases h : item.jsonlFile ∈ E
    · rw [persistStoreF_cons_existing E item rest st h]
      exact ih st hf
    · cases hcwd : item.cwd with
      | none =>
        rw [persistStoreF_cons_none E item rest st h hcwd]
        exact ih st hf
      | some cwd =>
        by_cases hz : cwd = ""
        · subst hz
          rw [persistStoreF_cons_empty E item rest st h hcwd]
          exact ih st hf
        · rw [persistStoreF_cons_insert E item rest st cwd h hcwd hz]
          exact ih _ (existingConvFiles_step_mono st item cwd f hf)

theorem persistStoreF_new_mem (E : List String) (items : List DiscoveredConversation)
    (item : DiscoveredConversation) (hnew : item.jsonlFile ∉ E)
    (hfne : item.jsonlFile ≠ "") :
    ∀ st, item ∈ items → (∀ x ∈ items, ∃ c, x.cwd = some c ∧ c ≠ "") →
      item.jsonlFile ∈ existingConvFiles (persistStoreF false E items st) := by
  induction items with
  | nil =>
    intro st hit _
    cases hit
  | cons hd rest ih =>
    intro st hit hcwd
    rcases List.mem_cons.mp hit with rfl | hmem
    · obtain ⟨c, hc, hcne⟩ := hcwd item (List.mem_cons_self item rest)
      rw [persistStoreF_cons_insert E item rest st c hnew hc hcne]
      refine persistStoreF_existing_mono E rest _ _ ?_
      exact existingConvFiles_intro _ (convRecord item c) (projRecord item c)
        (mem_upsertBy_self _ _ _) (mem_upsertBy_self _ _ _) rfl hfne
    · have hrest : ∀ x ∈ rest, ∃ c, x.cwd = some c ∧ c ≠ "" :=
        fun x hx => hcwd x (List.mem_cons_of_mem hd hx)
      by_cases h : hd.jsonlFile ∈ E
      · rw [persistStoreF_cons_existing E hd rest st h]
        exact ih st hmem hrest
      · obtain ⟨c, hc, hcne⟩ := hcwd hd (List.mem_cons_self hd rest)
        rw [persistStoreF_cons_insert E hd rest st c h hc hcne]
        exact ih _ hmem hrest

theorem matchedOf_mem (w : List String) (items : List DiscoveredConversation) :
    ∀ m ∈ matchedOf w items, (∃ c, m.cwd = some c ∧ c ≠ "") ∧
      ∃ item ∈ items, m.jsonlFile = item.jsonlFile := by
  intro m hm
  simp only [matchedOf, List.mem_filterMap] at hm
  obtain ⟨item, hit, hsome⟩ := hm
  split at hsome
  · split at hsome
    · next hcond =>
      obtain rfl := Option.some.inj hsome
      exact ⟨⟨_, rfl, hcond.1⟩, item, hit, rfl⟩
    · cases hsome
  · cases hsome

theorem discover_jsonl_path (jp : JParse) (dp : DateParse) (files : List FileEntry)
    (s : ConversationSource) (d : DiscoveredConversation)
    (hd : d ∈ discoverConversationsFromFiles jp dp files s) :
    ∃ f ∈ files, d.jsonlFile = f.path := by
  simp only [discoverConversationsFromFiles, List.mem_filterMap] at hd
  obtain ⟨f, hf, hsome⟩ := hd
  cases hc : f.content with
  | none =>
    rw [hc] at hsome
    cases hsome
  | some raw =>
    rw [hc] at hsome
    by_cases hne : (nonEmptyLines raw).isEmpty = true
    · simp [hne] at hsome
    · simp [hne] at hsome
      cases s <;>
        · simp only [] at hsome
          subst hsome
          exact ⟨f, hf, by
            simp [extractConversationFromClaudeLines, extractConversationFromCodexLines]⟩

theorem discoverConversations_mem (jp : JParse) (dp : DateParse) (env : Env)
    (srcs : List ConversationSource) (d : DiscoveredConversation)
    (hd : d ∈ discoverConversations jp dp env srcs) :
    d ∈ discoverConversationsFromFiles jp dp env.claudeFiles .claude ∨
      d ∈ discoverConversationsFromFiles jp dp env.codexFiles .codex := by
  simp only [discoverConversations, List.mem_append] at hd
  rcases hd with h | h
  · left
    split at h
    · exact h
    · simp at h
  · right
    split at h
    · exact h
    · simp at h

theorem truncatedList_subset (maxF : Nat) (all : List DiscoveredConversation) :
    truncatedList maxF all ⊆ all := by
  by_cases h : all.length > maxF
  · simp only [truncatedList, if_pos h]
    exact List.take_subset _ _
  · simp only [truncatedList, if_neg h]
    exact fun x hx => hx

/-- Claim C3: with an unchanged environment, running the engine a second
time in apply mode over the store produced by the first run (store writes
modelled as upsert-by-key per spec 4.6) inserts nothing: the second report
has zero inserted (in total and per source) and counts as existing exactly
what the first run counted as existing plus what it inserted.  The
transcript paths must be truthy (non-empty), as the store's existing-files
listing drops falsy paths. -/
theorem c3_second_run_idempotent (jp : JParse) (dp : DateParse) (env : Env) (st : Store)
    (agentId : String) (req : BackfillRequest)
    (out1 out2 : BackfillReport × Store × List WriteOp)
    (hpaths : ∀ f ∈ env.claudeFiles ++ env.codexFiles, f.path ≠ "")
    (h1 : backfillAgentMemory jp dp env noFail st agentId
      { req with dryRun := some false } = .ok out1)
    (h2 : backfillAgentMemory jp dp env noFail out1.2.1 agentId
      { req with dryRun := some false } = .ok out2) :
    out2.1.total_inserted = 0 ∧
    out2.1.total_existing = out1.1.total_existing + out1.1.total_inserted ∧
    ∀ t, (getStats out2.1.sources t).inserted = 0 ∧
      (getStats out2.1.sources t).existing =
        (getStats out1.1.sources t).existing + (getStats out1.1.sources t).inserted := by
  obtain ⟨-, hp1⟩ := backfill_ok_destruct jp dp env noFail st agentId
    { req with dryRun := some false } out1 h1
  obtain ⟨-, hp2⟩ := backfill_ok_destruct jp dp env noFail out1.2.1 agentId
    { req with dryRun := some false } out2 h2
  simp only [effectiveDryRun_some, effectiveSources_dryRun, effectiveMaxFiles_dryRun,
    Bool.not_false] at hp1 hp2
  rw [persistLoop_noFail_eq] at hp1 hp2
  rw [fetchWds_existing] at hp1 hp2
  rw [fetchWds_noFail_sdr dp env out1.2.1 st agentId true true] at hp2
  set dAll := discoverConversations jp dp env (effectiveSources req) with hdAll
  set frS := fetchWorkingDirectoriesForAgent dp env noFail st agentId true with hfrS
  set R0 := preReport agentId false (effectiveMaxFiles req) frS.1 dAll with hR0
  set T := truncatedList (effectiveMaxFiles req) dAll with hT
  set M := matchedOf R0.working_directories T with hM
  set R3 := classifyReport R0.working_directories T R0 with hR3
  set E1 := existingConvFiles st with hE1
  set E2 := existingConvFiles out1.2.1 with hE2
  have e1 := Except.ok.inj hp1
  have e2 := Except.ok.inj hp2
  have hrep1 : out1.1 = persistReport E1 M R3 := by rw [← e1]
  have hrep2 : out2.1 = persistReport E2 M R3 := by rw [← e2]
  have hstore1 : out1.2.1 = persistStoreF false E1 M frS.2.1 := by rw [← e1]
  have hfrE : existingConvFiles frS.2.1 = E1 := by
    rw [hfrS, hE1]
    exact fetchWds_existing dp env noFail st agentId true
  have hE2all : ∀ m ∈ M, m.jsonlFile ∈ E2 := by
    intro m hm
    obtain ⟨⟨c, hc, hcne⟩, item, hitem, hfile⟩ :=
      matchedOf_mem R0.working_directories T m (hM ▸ hm)
    have hfne : m.jsonlFile ≠ "" := by
      rw [hfile]
      have hall : item ∈ dAll := truncatedList_subset (effectiveMaxFiles req) dAll
        (hT ▸ hitem)
      rcases discoverConversations_mem jp dp env (effectiveSources req) item
          (hdAll ▸ hall) with hcl | hcx
      · obtain ⟨f, hf, hpath⟩ := discover_jsonl_path jp dp env.claudeFiles .claude item hcl
        rw [hpath]
        exact hpaths f (List.mem_append_left _ hf)
      · obtain ⟨f, hf, hpath⟩ := discover_jsonl_path jp dp env.codexFiles .codex item hcx
        rw [hpath]
        exact hpaths f (List.mem_append_right _ hf)
    rw [hE2, hstore1]
    by_cases hmem : m.jsonlFile ∈ E1
    · exact persistStoreF_existing_mono E1 M m.jsonlFile frS.2.1
        (by rw [hfrE]; exact hmem)
    · exact persistStoreF_new_mem E1 M m hmem hfne frS.2.1 hm
        (fun x hx => (matchedOf_mem R0.working_directories T x (hM ▸ hx)).1)
  have hnew2 : newItems E2 M = [] := by
    simp only [newItems, List.filter_eq_nil_iff]
    intro a ha
    simp [hE2all a ha]
  obtain ⟨-, -, -, p4, p5, -, -, -, p9⟩ :=
    preReport_spec agentId false (effectiveMaxFiles req) frS.1 dAll
  rw [← hR0] at p4 p5 p9
  obtain ⟨-, -, -, -, ce3, ci3, -, -, -, -, -, -, cp13⟩ :=
    classifyReport_preserved R0.working_directories T R0
  rw [← hR3] at ce3 ci3 cp13
  obtain ⟨c1e, c1i, c1s⟩ := persistReport_counts E1 M R3
  obtain ⟨c2e, c2i, c2s⟩ := persistReport_counts E2 M R3
  have hsplit1 := existing_new_length_split E1 M
  have hsplit2 := existing_new_length_split E2 M
  have hnil2 : (newItems E2 M).length = 0 := by rw [hnew2]; rfl
  refine ⟨?_, ?_, ?_⟩
  · rw [hrep2, c2i, ci3, p5, hnil2]
  · rw [hrep2, hrep1, c2e, c1e, c1i, ce3, ci3, p4, p5]
    omega
  · intro t
    obtain ⟨q2e, q2i⟩ := c2s t
    obtain ⟨q1e, q1i⟩ := c1s t
    obtain ⟨-, cpe, cpi⟩ := cp13 t
    obtain ⟨-, -, -, pe, pi⟩ := p9 t
    have hcs2 := countSource_split t E2 M
    have hcs1 := countSource_split t E1 M
    have hcnil : countSource t (newItems E2 M) = 0 := by
      rw [hnew2]
      rfl
    constructor
    · rw [hrep2, q2i, cpi, pi, hcnil]
    · rw [hrep2, hrep1, q2e, q1e, q1i, cpe, cpi, pe, pi]
      omega

/-- The outcome of a second apply run on `env1`, starting from the store the
first apply run (`out1a`) produced. -/
def out2c : BackfillReport × Store × List WriteOp :=
  match backfillAgentMemory jp0 dp0 env1 noFail out1a.2.1 "a" { dryRun := some false } with
  | .ok o => o
  | .error _ => (emptyReport "a" false 5000, st0, [])

/-- C3 witness: on the concrete `env1` fixture the second apply run inserts
nothing and reclassifies the first run's insert as existing. -/
theorem c3_second_run_idempotent_witness :
    (∀ f ∈ env1.claudeFiles ++ env1.codexFiles, f.path ≠ "") ∧
    out2c.1.total_inserted = 0 ∧
    out2c.1.total_existing = out1a.1.total_existing + out1a.1.total_inserted := by
  have h := c3_second_run_idempotent jp0 dp0 env1 st0 "a" {} out1a out2c
    (by decide) (by rfl) (by rfl)
  exact ⟨by decide, h.1, h.2.1⟩

end Backfill
